import Mathlib

set_option maxHeartbeats 1000000
set_option maxRecDepth 4000

/-!
Shallow embedding of the manga-extension extraction layer
(GalaxyAction `parser.ts` / `main.ts`, and the Zzizz parser with its
`helpers` and `constants`).

Modelling conventions, used throughout:

* JavaScript strings are modelled as `List Char` (abbreviated `Str`),
  so that the string operations of the source (`split`, `trim`,
  `includes`, `startsWith`, regexp scans) become structurally
  recursive Lean functions that the kernel can evaluate.
* DOM querying is abstracted away: a "document" is the record of the
  raw strings the source's selector chains extract from it (one record
  or list entry per matched node).  Everything the source does *after*
  text/attribute extraction is modelled faithfully.
* `Application.decodeHTMLEntities` is a host-provided pure entity
  decoder, external to this repository; no verified property depends
  on entity decoding, so it is modelled as the identity.
* `new Date()` (the wall clock) is modelled as an explicit `now`
  parameter threaded into the functions that consult it.
* `toLowerCase`/`toUpperCase` are modelled on the ASCII range, which
  covers every string the verified properties touch.
-/

/-- JavaScript strings, modelled as lists of characters. -/
abbrev Str := List Char

/-- `leads pat l` models `l.startsWith(pat)` (pattern match at the head). -/
def leads : Str → Str → Bool
  | [], _ => true
  | _ :: _, [] => false
  | p :: ps, c :: cs => p == c && leads ps cs

/-- `containsSub pat l` models JavaScript `l.includes(pat)`. -/
def containsSub (pat : Str) : Str → Bool
  | [] => pat.isEmpty
  | c :: t => leads pat (c :: t) || containsSub pat t

/-- The whitespace characters recognised by JavaScript `trim` / `\s`
(restricted to the ASCII range; the sources never produce non-ASCII
whitespace in the modelled fields). -/
def isJsWsB (c : Char) : Bool :=
  c == ' ' || c == '\t' || c == '\n' || c == '\r' || c == Char.ofNat 11 || c == Char.ofNat 12

/-- Drop trailing JavaScript whitespace. -/
def dropTrailingWs (l : Str) : Str :=
  (l.reverse.dropWhile isJsWsB).reverse

/-- JavaScript `String.prototype.trim`. -/
def jsTrim (l : Str) : Str :=
  dropTrailingWs (l.dropWhile isJsWsB)

/-- ASCII lower-casing of one character (models `toLowerCase` on the
characters the verified properties touch). -/
def asciiLowerChar (c : Char) : Char :=
  if 'A' ≤ c ∧ c ≤ 'Z' then Char.ofNat (c.toNat + 32) else c

/-- ASCII `toLowerCase` on a string. -/
def asciiLower (l : Str) : Str := l.map asciiLowerChar

/-- ASCII upper-casing of one character (models `toUpperCase`). -/
def asciiUpperChar (c : Char) : Char :=
  if 'a' ≤ c ∧ c ≤ 'z' then Char.ofNat (c.toNat - 32) else c

/-- `s.charAt(0).toUpperCase() + s.slice(1)`, the title-casing used by the
GalaxyAction status normalizer. -/
def titleCase : Str → Str
  | [] => []
  | c :: r => asciiUpperChar c :: r

/-- JavaScript `split(sep)` on a single-character separator: the list of
(possibly empty) chunks between occurrences of `sep`. -/
def splitOnChar (sep : Char) : Str → List Str
  | [] => [[]]
  | c :: cs =>
    let r := splitOnChar sep cs
    if c = sep then [] :: r
    else
      match r with
      | [] => [[c]]
      | h :: t => (c :: h) :: t

/-- The host's `Application.decodeHTMLEntities`: an external pure entity
decoder.  No verified property depends on entity decoding, so it is
modelled as the identity. -/
def decodeHTMLEntities (l : Str) : Str := l

/-- A JavaScript `Date` value, modelled as its timestamp. -/
structure JsDate where
  t : Int
deriving DecidableEq

/-- Models `new Date(string)` for date strings: returns `some` for the
absolute-date shapes the sites emit (modelled here as ISO `YYYY-MM-DD`)
and `none` (`NaN`, "invalid date") for everything else.  The verified
properties do not depend on which absolute formats the host accepts,
only on whether the wall clock is consulted instead. -/
def jsDateParse (l : Str) : Option JsDate :=
  match l with
  | [y1, y2, y3, y4, d1, m1, m2, d2, dd1, dd2] =>
    if y1.isDigit && y2.isDigit && y3.isDigit && y4.isDigit &&
       d1 == '-' && m1.isDigit && m2.isDigit && d2 == '-' &&
       dd1.isDigit && dd2.isDigit then
      some (JsDate.mk (((((y1.toNat - 48) * 10 + (y2.toNat - 48)) * 10 + (y3.toNat - 48)) * 10 +
            (y4.toNat - 48)) * 10000 +
            ((m1.toNat - 48) * 10 + (m2.toNat - 48)) * 100 +
            ((dd1.toNat - 48) * 10 + (dd2.toNat - 48))))
    else none
  | _ => none

namespace GA

/-- `DOMAIN` from GalaxyAction `pbconfig`. -/
def DOMAIN : Str := "https://galaxyaction.net".toList

/-- `MangaReaderParser.idCleaner`: strip the query string, split on `/`,
drop empty segments, and return the last segment (or the query-stripped
url itself when no segment remains). -/
def idCleaner (url : Str) : Str :=
  if url = [] then []
  else
    let cleanUrl := url.takeWhile (fun c => c != '?')
    let parts := (splitOnChar '/' cleanUrl).filter (fun p => !p.isEmpty)
    match parts.getLast? with
    | some p => p
    | none => cleanUrl

end GA

/-- The enum `ContentRating` of the host types. -/
inductive ContentRating where
  | everyone
  | mature
  | adult
deriving DecidableEq

/-- A tag pair `{id, title}`. -/
structure Tag where
  id : Str
  title : Str
deriving DecidableEq

/-- A named tag group `{id, title, tags}`. -/
structure TagSection where
  id : Str
  title : Str
  tags : List Tag
deriving DecidableEq

/-- `parseDate` of the GalaxyAction parser: empty text, text containing
`ago`/`just now`, and unparseable text all collapse to the wall clock
(`new Date()`, the `now` parameter); otherwise the parsed absolute date
is returned. -/
def GA.parseDate (now : JsDate) (dateString : Str) : JsDate :=
  if dateString = [] then now
  else
    let date := jsTrim dateString
    if containsSub ("ago".toList) date || containsSub ("just now".toList) date then now
    else
      match jsDateParse date with
      | some d => d
      | none => now

namespace GA

/-- The adult genre keywords of `parseMangaDetails`. -/
def adultKeywords : List Str := ["adult".toList, "18+".toList, "nsfw".toList]

/-- The mature genre keywords of `parseMangaDetails`. -/
def matureKeywords : List Str := ["mature".toList, "ecchi".toList]

/-- The `Completed` status bucket of `parseMangaDetails`. -/
def completedBucket : List Str := ["completed".toList, "finished".toList]

/-- The `Hiatus` status bucket of `parseMangaDetails`. -/
def hiatusBucket : List Str := ["hiatus".toList, "on hold".toList]

/-- The `Cancelled` status bucket of `parseMangaDetails`. -/
def cancelledBucket : List Str := ["cancelled".toList, "dropped".toList]

/-- The status normalization block of `parseMangaDetails`, applied to the
(already trimmed) text of the status node: empty text keeps the default
`Ongoing`; the three explicit buckets are matched against the lower-cased
text; anything else is passed through with its first character
upper-cased. -/
def statusOf (statusImptdt : Str) : Str :=
  if statusImptdt = [] then "Ongoing".toList
  else
    let normalized := asciiLower statusImptdt
    if normalized ∈ completedBucket then "Completed".toList
    else if normalized ∈ hiatusBucket then "Hiatus".toList
    else if normalized ∈ cancelledBucket then "Cancelled".toList
    else titleCase statusImptdt

/-- One matched `span.mgen a` genre anchor: its text and `href` attribute
(`attr("href") || ""`). -/
structure GenreNode where
  text : Str
  href : Str
deriving DecidableEq

/-- A GalaxyAction manga-details document, abstracted to the strings its
selector chains extract.  The rating nodes (`.num[itemprop]` /
`.numscore`) are omitted: rating extraction goes through JavaScript
`parseFloat` floating-point arithmetic and no verified property
references the `rating` field. -/
structure MangaDoc where
  titleRaw : Str
  authorRaw : Str
  artistRaw : Str
  synopsisRaw : Str
  thumbSrc : Str
  statusRaw : Str
  genres : List GenreNode
deriving DecidableEq

/-- The genre-keyword extraction of `parseMangaDetails`: for each genre
anchor in document order, trim the text and clean the href; skip the
node when either is empty; push the lower-cased text. -/
def genreKeywordsOf (doc : MangaDoc) : List Str :=
  doc.genres.filterMap fun g =>
    let title := jsTrim g.text
    let id := idCleaner g.href
    if title = [] ∨ id = [] then none else some (asciiLower title)

/-- The genre tag pairs collected by `parseMangaDetails` (before the DEBUG
filter). -/
def genreTagsOf (doc : MangaDoc) : List Tag :=
  doc.genres.filterMap fun g =>
    let title := jsTrim g.text
    let id := idCleaner g.href
    if title = [] ∨ id = [] then none else some ⟨id, title⟩

/-- The content-rating inference of `parseMangaDetails`: start from
`EVERYONE`, upgrade to `ADULT` on an adult keyword, else to `MATURE` on
a mature keyword. -/
def contentRatingOf (genreKeywords : List Str) : ContentRating :=
  if ∃ g ∈ genreKeywords, g ∈ adultKeywords then .adult
  else if ∃ g ∈ genreKeywords, g ∈ matureKeywords then .mature
  else .everyone

/-- The manga record produced by `parseMangaDetails` (the `rating` field
is omitted, see `MangaDoc`). -/
structure MangaDetails where
  mangaId : Str
  shareUrl : Str
  primaryTitle : Str
  secondaryTitles : List Str
  thumbnailUrl : Str
  author : Str
  artist : Str
  synopsis : Str
  contentRating : ContentRating
  status : Str
  tagGroups : List TagSection
deriving DecidableEq

/-- `MangaReaderParser.parseMangaDetails`. -/
def parseMangaDetails (doc : MangaDoc) (mangaId : Str) (domain : Str) : MangaDetails :=
  { mangaId := mangaId
    shareUrl := domain ++ "/manga/".toList ++ mangaId
    primaryTitle := decodeHTMLEntities (jsTrim doc.titleRaw)
    secondaryTitles := []
    thumbnailUrl := doc.thumbSrc
    author := decodeHTMLEntities (jsTrim doc.authorRaw)
    artist := decodeHTMLEntities (jsTrim doc.artistRaw)
    synopsis := decodeHTMLEntities (jsTrim doc.synopsisRaw)
    contentRating := contentRatingOf (genreKeywordsOf doc)
    status := statusOf (jsTrim doc.statusRaw)
    tagGroups := [⟨"genres".toList, "Genres".toList,
      (genreTagsOf doc).filter fun g =>
        !(g.id == "debug".toList && g.title == "DEBUG".toList)⟩] }

/-- One matched `li[data-num]` chapter node of the GalaxyAction chapter
list, abstracted to the strings its selector chains extract: the first
anchor's `href`, the `.chapternum` text and the `.chapterdate` text. -/
structure ChapterNode where
  href : Str
  chapternumText : Str
  chapterdateText : Str
deriving DecidableEq

/-- The href-validity check of `parseChapterList`: an entry is skipped
when its href is empty, starts with `#`, or contains `\x7b\x7b` or
`\x7d\x7d`. -/
def goodHref (href : Str) : Bool :=
  !href.isEmpty && !leads ['#'] href &&
  !containsSub ("\x7b\x7b".toList) href && !containsSub ("\x7d\x7d".toList) href

/-- The regexp `^https?:\/\/[^\/]+(\/.*)$`: scheme, a non-empty host, and
the captured path (which must be non-empty and starts with `/`). -/
def httpPathMatch (h : Str) : Option Str :=
  let afterScheme : Option Str :=
    if leads ("https://".toList) h then some (h.drop 8)
    else if leads ("http://".toList) h then some (h.drop 7)
    else none
  match afterScheme with
  | none => none
  | some r =>
    let host := r.takeWhile (fun c => c != '/')
    if host = [] then none
    else
      match r.drop host.length with
      | [] => none
      | p => some p

/-- The chapter-id normalization of `parseChapterList`: absolute URLs are
reduced to their path, everything else is kept as is. -/
def normalizeHref (href : Str) : Str :=
  if leads ("http".toList) href then
    match httpPathMatch href with
    | some p => p
    | none => href
  else href

/-- A chapter record (`Chapter` of the host types).  The `sourceManga`
back-reference is the constant record passed in by the caller and the
`chapNum` field is computed by a regexp-plus-`parseFloat` pipeline that
no verified property references; both are omitted from the model. -/
structure Chapter where
  chapterId : Str
  langCode : Str
  title : Str
  publishDate : JsDate
  sortingIndex : Int
deriving DecidableEq

/-- One iteration step's record construction in `parseChapterList`. -/
def mkChapter (total : Nat) (lang : Str) (now : JsDate) (i : Nat) (e : ChapterNode) : Chapter :=
  { chapterId := normalizeHref e.href
    langCode := lang
    title :=
      let chapName := jsTrim e.chapternumText
      if chapName = [] then [] else decodeHTMLEntities chapName
    publishDate := GA.parseDate now (jsTrim e.chapterdateText)
    sortingIndex := (total : Int) - (i : Int) }

/-- The `each` loop of `parseChapterList`: `i` is the document index,
`total` the number of matched nodes (bad entries included).  The late
`!chapterId || chapterId === "#"` check of the source is kept even
though it can never fire after the href check. -/
def chapterLoop (total : Nat) (lang : Str) (now : JsDate) : Nat → List ChapterNode → List Chapter
  | _, [] => []
  | i, e :: rest =>
    if goodHref e.href then
      let cid := normalizeHref e.href
      if cid = [] ∨ cid = ['#'] then chapterLoop total lang now (i + 1) rest
      else mkChapter total lang now i e :: chapterLoop total lang now (i + 1) rest
    else chapterLoop total lang now (i + 1) rest

/-- `MangaReaderParser.parseChapterList`. -/
def parseChapterList (entries : List ChapterNode) (lang : Str) (now : JsDate) : List Chapter :=
  chapterLoop entries.length lang now 0 entries

end GA

namespace ZZ

/-- `DOMAIN` from Ziz `pbconfig`. -/
def DOMAIN : Str := "https://zzizz.xyz".toList

/-- The literal `/manga/` of the `cleanMangaId` regexp. -/
def mangaLit : Str := "/manga/".toList

/-- The literal `/reader/manga/` of the `cleanMangaId` regexp. -/
def readerLit : Str := "/reader/manga/".toList

/-- One attempt of the regexp `(?:\/manga\/|\/reader\/manga\/)([^/]+)` at the
current position: try the alternative `/manga/` first, then
`/reader/manga/` (they can never both match, their second characters
differ), and require a non-empty `[^/]+` capture. -/
def slugAt (l : Str) : Option Str :=
  if leads mangaLit l then
    let cap := (l.drop 7).takeWhile (fun c => c != '/')
    if cap = [] then none else some cap
  else if leads readerLit l then
    let cap := (l.drop 14).takeWhile (fun c => c != '/')
    if cap = [] then none else some cap
  else none

/-- Leftmost match of `(?:\/manga\/|\/reader\/manga\/)([^/]+)`: scan the
string position by position, as the regexp engine does after a failed
attempt. -/
def findMangaSlug : Str → Option Str
  | [] => none
  | c :: cs =>
    match slugAt (c :: cs) with
    | some s => some s
    | none => findMangaSlug cs

/-- `replace(/\/$/, "")`: remove one trailing slash, if present. -/
def stripTrailingSlash (l : Str) : Str :=
  if l.getLast? = some '/' then l.dropLast else l

/-- `ZizHelpers.cleanMangaId`: strip query string and one trailing slash,
match `/manga/<slug>` or `/reader/manga/<slug>`, else fall back to the
last non-empty `/`-segment (empty string when there is none). -/
def cleanMangaId (url : Str) : Str :=
  if url = [] then []
  else
    let cleanUrl := stripTrailingSlash (url.takeWhile (fun c => c != '?'))
    match findMangaSlug cleanUrl with
    | some m => m
    | none =>
      match ((splitOnChar '/' cleanUrl).filter (fun p => !p.isEmpty)).getLast? with
      | some p => p
      | none => []

/-- `ZizParser.idCleaner` duplicates `ZizHelpers.cleanMangaId` verbatim in
the source; it is modelled by the same function. -/
def idCleaner (url : Str) : Str := cleanMangaId url

/-- `ZizHelpers.ensureTrailingSlash`. -/
def ensureTrailingSlash (l : Str) : Str :=
  if l.getLast? = some '/' then l else l ++ ['/']

end ZZ

/-- The double-quote character. -/
def quoteChar : Char := Char.ofNat 34

/-- The single-quote character. -/
def apostChar : Char := Char.ofNat 39

/-- The backslash character. -/
def backslashChar : Char := Char.ofNat 92

namespace GA

/-- The marker string identifying the reader script. -/
def tsReaderMarker : Str := "ts_reader.run".toList

/-- The literal `"images"` (quotes included) of the images regexp. -/
def imagesKeyLit : Str := quoteChar :: "images".toList ++ [quoteChar]

/-- One attempt of the regexp `"images"\s*:\s*(\[[^\]]*\])` at the current
position; the captured group includes the brackets. -/
def imagesArrayAt (l : Str) : Option Str :=
  if leads imagesKeyLit l then
    match (l.drop 8).dropWhile isJsWsB with
    | ':' :: r2 =>
      match r2.dropWhile isJsWsB with
      | '[' :: r4 =>
        let body := r4.takeWhile (fun c => c != ']')
        match r4.drop body.length with
        | ']' :: _ => some ('[' :: body ++ [']'])
        | _ => none
      | _ => none
    | _ => none
  else none

/-- Leftmost match of `"images"\s*:\s*(\[[^\]]*\])` over the script text. -/
def imagesArrayMatch : Str → Option Str
  | [] => none
  | c :: cs =>
    match imagesArrayAt (c :: cs) with
    | some a => some a
    | none => imagesArrayMatch cs

/-- `replace(/'/g, '"')` of `extractImagesFromScript`. -/
def replaceQuotes (l : Str) : Str :=
  l.map fun c => if c = apostChar then quoteChar else c

/-- `replace(/,]/g, "]")` of `extractImagesFromScript` (global, scanning
resumes after each replacement). -/
def replaceCommaBracket : Str → Str
  | [] => []
  | [c] => [c]
  | c :: d :: rest =>
    if c = ',' ∧ d = ']' then ']' :: replaceCommaBracket rest
    else c :: replaceCommaBracket (d :: rest)

/-- Fueled worker for `replaceCommaWsBracket`: one unit of fuel per scan
step (a step always consumes at least one character, so fuel equal to
the input length is adequate); the fuel makes the recursion structural,
so the kernel can evaluate it. -/
def rwbAux : Nat → Str → Str
  | _, [] => []
  | 0, l => l
  | fuel + 1, c :: rest =>
    if c = ',' then
      match rest.drop (rest.takeWhile isJsWsB).length with
      | ']' :: r3 => ']' :: rwbAux fuel r3
      | _ => ',' :: rwbAux fuel rest
    else c :: rwbAux fuel rest

/-- `replace(/,\s*]/g, "]")` of `extractImagesFromScript`. -/
def replaceCommaWsBracket (l : Str) : Str := rwbAux l.length l

/-- A character allowed inside the modelled JSON string literals (no
double quote, no backslash — matching `[^"\\]` of the fallback regexp;
`JSON.parse` escape sequences are not modelled, the verified inputs
never contain backslashes). -/
def strChar (c : Char) : Bool := c != quoteChar && c != backslashChar

/-- Parse one JSON string literal, returning the content and the rest. -/
def parseJsonString (l : Str) : Option (Str × Str) :=
  match l with
  | c :: rest =>
    if c = quoteChar then
      let s := rest.takeWhile strChar
      match rest.drop s.length with
      | c2 :: r2 => if c2 = quoteChar then some (s, r2) else none
      | [] => none
    else none
  | [] => none

/-- Parse the comma-separated elements of a JSON string array (leading
whitespace already skipped), requiring the closing bracket and the end
of input; `fuel` bounds the recursion. -/
def parseElems : Nat → Str → Option (List Str)
  | 0, _ => none
  | fuel + 1, l =>
    match parseJsonString l with
    | none => none
    | some (s, rest) =>
      match rest.dropWhile isJsWsB with
      | c :: r2 =>
        if c = ',' then
          match parseElems fuel (r2.dropWhile isJsWsB) with
          | some tl => some (s :: tl)
          | none => none
        else if c = ']' then
          if r2.dropWhile isJsWsB = [] then some [s] else none
        else none
      | [] => none

/-- Models `JSON.parse` restricted to arrays of (escape-free) string
literals, the only shape `extractImagesFromScript` consumes; every other
input is rejected (`none`), sending the source to its regexp-fallback
branch. -/
def parseJsonStringArray (l : Str) : Option (List Str) :=
  match l.dropWhile isJsWsB with
  | c :: r =>
    if c = '[' then
      match r.dropWhile isJsWsB with
      | c2 :: r2 =>
        if c2 = ']' then (if r2.dropWhile isJsWsB = [] then some [] else none)
        else parseElems (r.length + 1) (r.dropWhile isJsWsB)
      | [] => none
    else none
  | [] => none

/-- Fueled worker for `extractQuoted` (fuel equal to the input length is
adequate; the fuel makes the recursion structural). -/
def extractQuotedAux : Nat → Str → List Str
  | _, [] => []
  | 0, _ => []
  | fuel + 1, c :: rest =>
    if c = quoteChar then
      let s := rest.takeWhile strChar
      if s = [] then extractQuotedAux fuel rest
      else
        match rest.drop s.length with
        | c2 :: r2 =>
          if c2 = quoteChar then s :: extractQuotedAux fuel r2
          else extractQuotedAux fuel rest
        | [] => extractQuotedAux fuel rest
    else extractQuotedAux fuel rest

/-- The fallback `match(/"([^"\\]+)"/g)` of `extractImagesFromScript`,
with the quotes stripped from each match. -/
def extractQuoted (l : Str) : List Str := extractQuotedAux l.length l

/-- `MangaReaderParser.isValidImageUrl`. -/
def isValidImageUrl (url : Str) : Bool :=
  !url.isEmpty && !(jsTrim url).isEmpty &&
  !containsSub ("readerarea.svg".toList) url && !containsSub ("data:image/svg".toList) url

/-- `MangaReaderParser.extractImagesFromScript`: find the first script
containing the reader marker, extract the bracketed images array, clean
it (`'`→`"`, then the two trailing-comma replacements), `JSON.parse` it,
and on parse failure fall back to collecting the double-quoted literals
of the raw match; candidates are filtered by `isValidImageUrl` on both
paths. -/
def extractImagesFromScript (scripts : List Str) : List Str :=
  match scripts.find? (fun s => containsSub tsReaderMarker s) with
  | none => []
  | some sc =>
    match imagesArrayMatch sc with
    | none => []
    | some arr =>
      let cleanArray := replaceCommaWsBracket (replaceCommaBracket (replaceQuotes arr))
      match parseJsonStringArray cleanArray with
      | some imageArray => imageArray.filter isValidImageUrl
      | none => (extractQuoted arr).filter isValidImageUrl

/-- One `#readerarea img` node: its `src` and `data-src` attributes
(empty for missing). -/
structure ReaderImg where
  src : Str
  dataSrc : Str
deriving DecidableEq

/-- `MangaReaderParser.extractImagesFromReader`. -/
def extractImagesFromReader (imgs : List ReaderImg) : List Str :=
  imgs.filterMap fun im =>
    let s := if im.src = [] then im.dataSrc else im.src
    if isValidImageUrl s then some s else none

/-- `MangaReaderParser.parseChapterDetails` (the pages field): in
JavaScript an array — even an empty one — is truthy, so
`extractImagesFromScript($) || extractImagesFromReader($)` never falls
through to the reader fallback; the model reflects that. -/
def parseChapterDetails (scripts : List Str) (_readerImgs : List ReaderImg) : List Str :=
  extractImagesFromScript scripts

/-- One matched search/discover entry node (`.bsx` by default): anchor
href, `.tt` title text, `.limit img` src, `.epxs` subtitle text. -/
structure SearchNode where
  href : Str
  titleRaw : Str
  imgSrc : Str
  subtitleRaw : Str
deriving DecidableEq

/-- A search result item.  The `imageUrl` field passes through the
external `encodeURI` builtin and no verified property references it, so
it is omitted. -/
structure SearchResultItem where
  mangaId : Str
  title : Str
  subtitle : Str
deriving DecidableEq

/-- `MangaReaderParser.parseSearchResults`: skip entries with empty href
or title, or whose cleaned id is empty, `undefined` or `null`. -/
def parseSearchResults (nodes : List SearchNode) : List SearchResultItem :=
  nodes.filterMap fun n =>
    let title := jsTrim n.titleRaw
    if n.href = [] ∨ title = [] then none
    else
      let mangaId := idCleaner n.href
      if mangaId = [] ∨ mangaId = "undefined".toList ∨ mangaId = "null".toList then none
      else some ⟨mangaId, decodeHTMLEntities title, decodeHTMLEntities (jsTrim n.subtitleRaw)⟩

/-- The detail-page URL `parseMangaDetails` constructs for an id
(`domain + "/manga/" + mangaId` with the configured domain). -/
def shareUrlOf (mangaId : Str) : Str := DOMAIN ++ "/manga/".toList ++ mangaId

end GA

/-- Worker for `collapseWs`: `inRun` records whether the previous
character was whitespace (so the current run already emitted its
replacement). -/
def collapseWsAux (inRun : Bool) : Str → Str
  | [] => []
  | c :: r =>
    if isJsWsB c then
      if inRun then collapseWsAux true r else ' ' :: collapseWsAux true r
    else c :: collapseWsAux false r

/-- `replace(/\s+/g, " ")`: collapse every whitespace run to one space. -/
def collapseWs (l : Str) : Str := collapseWsAux false l

namespace GA

/-- One `#wpop-items .serieslist.wpop-weekly ul li` node of the
GalaxyAction homepage, abstracted to its extracted strings. -/
structure WeeklyNode where
  href : Str
  imgSrc : Str
  titleRaw : Str
  subRaw : Str
deriving DecidableEq

/-- A weekly-section discover item. -/
structure DiscoverItem where
  mangaId : Str
  imageUrl : Str
  title : Str
  subtitle : Option Str
deriving DecidableEq

/-- The per-entry body of the weekly-manga loop in
`getDiscoverSectionItems` (`main.ts`): skip on missing href/title and on
empty/`undefined`/`null` cleaned id; the subtitle is the whitespace
collapse-and-trim of the `.leftseries span` text, `undefined` when
empty. -/
def mkWeeklyItem (n : WeeklyNode) : Option DiscoverItem :=
  let title := jsTrim n.titleRaw
  if n.href = [] ∨ title = [] then none
  else
    let mangaId := idCleaner n.href
    if mangaId = [] ∨ mangaId = "undefined".toList ∨ mangaId = "null".toList then none
    else
      let sub := jsTrim (collapseWs n.subRaw)
      some ⟨mangaId, n.imgSrc, title, if sub = [] then none else some sub⟩

/-- The weekly-manga `each` loop of `getDiscoverSectionItems`: the
`if (i >= 12) return false` line aborts the iteration at document index
12. -/
def weeklyLoop : Nat → List WeeklyNode → List DiscoverItem
  | _, [] => []
  | i, n :: rest =>
    if 12 ≤ i then []
    else
      match mkWeeklyItem n with
      | some it => it :: weeklyLoop (i + 1) rest
      | none => weeklyLoop (i + 1) rest

/-- The weekly-manga branch of `getDiscoverSectionItems`. -/
def getWeeklyItems (nodes : List WeeklyNode) : List DiscoverItem :=
  weeklyLoop 0 nodes

end GA

/-- Worker for `wsRunsToDash`. -/
def wsRunsToDashAux (inRun : Bool) : Str → Str
  | [] => []
  | c :: r =>
    if isJsWsB c then
      if inRun then wsRunsToDashAux true r else '-' :: wsRunsToDashAux true r
    else c :: wsRunsToDashAux false r

/-- `replace(/\s+/g, "-")`: every whitespace run becomes one dash (the
Zzizz genre-id construction). -/
def wsRunsToDash (l : Str) : Str := wsRunsToDashAux false l

namespace ZZ

/-- `STATUS_MAPPING.ONGOING` from the Zzizz constants. -/
def STATUS_ONGOING : List Str := ["in release".toList, "ongoing".toList, "publishing".toList]

/-- `STATUS_MAPPING.COMPLETED` from the Zzizz constants. -/
def STATUS_COMPLETED : List Str := ["completed".toList, "finished".toList]

/-- `STATUS_MAPPING.HIATUS` from the Zzizz constants. -/
def STATUS_HIATUS : List Str := ["hiatus".toList, "on hold".toList]

/-- `STATUS_MAPPING.CANCELLED` from the Zzizz constants. -/
def STATUS_CANCELLED : List Str := ["cancelled".toList, "dropped".toList]

/-- `CONTENT_RATING_GENRES.ADULT` from the Zzizz constants. -/
def CONTENT_RATING_ADULT : List Str := ["harem".toList, "harém".toList]

/-- The Zzizz mature keyword set: `CONTENT_RATING_GENRES` defines no
MATURE bucket, so it is empty. -/
def CONTENT_RATING_MATURE : List Str := []

/-- `ZizHelpers.normalizeStatus`: only the ONGOING bucket is consulted;
any unmatched non-empty text is returned unchanged. -/
def normalizeStatus (statusText : Str) : Str :=
  if statusText = [] then "Ongoing".toList
  else if asciiLower statusText ∈ STATUS_ONGOING then "Ongoing".toList
  else statusText

/-- `ZizHelpers.determineContentRating`: ADULT on an adult-genre match,
EVERYONE otherwise (no MATURE case exists). -/
def determineContentRating (genres : List Str) : ContentRating :=
  let genreKeywords := genres.map asciiLower
  if ∃ g ∈ genreKeywords, g ∈ CONTENT_RATING_ADULT then .adult else .everyone

/-- `ZizHelpers.buildFullUrl`. -/
def buildFullUrl (relativeUrl domain : Str) : Str :=
  if relativeUrl = [] then []
  else if leads ("http".toList) relativeUrl then relativeUrl
  else domain ++ relativeUrl

/-- Digit run to number: `parseFloat` on a non-empty all-digit capture
(the `|| 0` of the source only replaces `0` by `0`). -/
def digitsToNat (ds : Str) : Nat :=
  ds.foldl (fun a c => a * 10 + (c.toNat - 48)) 0

/-- One attempt of `/Chapter\s+(\d+)/i` at the current position. -/
def chapterNumAt (l : Str) : Option Str :=
  if leads ("chapter".toList) (asciiLower l) then
    let r := l.drop 7
    let w := r.takeWhile isJsWsB
    if w = [] then none
    else
      let ds := (r.drop w.length).takeWhile Char.isDigit
      if ds = [] then none else some ds
  else none

/-- Leftmost match of `/Chapter\s+(\d+)/i`. -/
def findChapterNum : Str → Option Str
  | [] => none
  | c :: cs =>
    match chapterNumAt (c :: cs) with
    | some d => some d
    | none => findChapterNum cs

/-- One attempt of `/reader\/manga\/[^/]+\/(\d+)/i` at the current
position. -/
def readerNumAt (l : Str) : Option Str :=
  if leads ("reader/manga/".toList) (asciiLower l) then
    let r := l.drop 13
    let seg := r.takeWhile (fun c => c != '/')
    if seg = [] then none
    else
      match r.drop seg.length with
      | _ :: r2 =>
        let ds := r2.takeWhile Char.isDigit
        if ds = [] then none else some ds
      | [] => none
  else none

/-- Leftmost match of `/reader\/manga\/[^/]+\/(\d+)/i`. -/
def findReaderNum : Str → Option Str
  | [] => none
  | c :: cs =>
    match readerNumAt (c :: cs) with
    | some d => some d
    | none => findReaderNum cs

/-- `ZizHelpers.extractChapterNumber`: number and display name from the
title, falling back to the chapter URL, defaulting to `(0, "")`. -/
def extractChapterNumber (chapterTitle chapterId : Str) : Nat × Str :=
  match findChapterNum chapterTitle with
  | some ds => (digitsToNat ds, "Chapter ".toList ++ ds)
  | none =>
    match findReaderNum chapterId with
    | some ds => (digitsToNat ds, "Chapter ".toList ++ ds)
    | none => (0, [])

/-- `ZizHelpers.parseRelativeDate`: empty or unparseable text collapses
to the wall clock. -/
def parseRelativeDate (now : JsDate) (dateString : Str) : JsDate :=
  if dateString = [] then now
  else
    match jsDateParse dateString with
    | some d => d
    | none => now

/-- One attempt of `/(\d+\s+(?:day|hour|minute)s?\s+ago)/i` at the
current position, returning the matched slice. -/
def relDateAt (l : Str) : Option Str :=
  let ds := l.takeWhile Char.isDigit
  if ds = [] then none
  else
    let r1 := l.drop ds.length
    let w1 := r1.takeWhile isJsWsB
    if w1 = [] then none
    else
      let r2 := r1.drop w1.length
      let unitLen : Option Nat :=
        if leads ("day".toList) (asciiLower r2) then some 3
        else if leads ("hour".toList) (asciiLower r2) then some 4
        else if leads ("minute".toList) (asciiLower r2) then some 6
        else none
      match unitLen with
      | none => none
      | some ul =>
        let r3 := r2.drop ul
        let sLen : Nat :=
          match r3 with
          | c :: _ => if asciiLowerChar c = 's' then 1 else 0
          | [] => 0
        let r4 := r3.drop sLen
        let w2 := r4.takeWhile isJsWsB
        if w2 = [] then none
        else
          let r5 := r4.drop w2.length
          if leads ("ago".toList) (asciiLower r5) then
            some (l.take (ds.length + w1.length + ul + sLen + w2.length + 3))
          else none

/-- Leftmost match of `/(\d+\s+(?:day|hour|minute)s?\s+ago)/i`. -/
def findRelDate : Str → Option Str
  | [] => none
  | c :: cs =>
    match relDateAt (c :: cs) with
    | some m => some m
    | none => findRelDate cs

/-- A Zzizz manga-details document, abstracted to the strings its
selector chains extract (the `#header-rating-value` node is omitted:
rating conversion goes through `parseFloat` floating-point arithmetic
and no verified property references it). -/
structure MangaDoc where
  titleRaw : Str
  authorRaw : Str
  artistRaw : Str
  synopsisRaw : Str
  coverSrc : Str
  statusRaw : Str
  genreTexts : List Str
deriving DecidableEq

/-- The genre-keyword extraction of `ZizParser.parseMangaDetails`. -/
def genreKeywordsOf (doc : MangaDoc) : List Str :=
  doc.genreTexts.filterMap fun t =>
    let title := jsTrim t
    if title = [] then none else some (asciiLower title)

/-- The genre tag pairs of `ZizParser.parseMangaDetails`. -/
def genreTagsOf (doc : MangaDoc) : List Tag :=
  doc.genreTexts.filterMap fun t =>
    let title := jsTrim t
    if title = [] then none
    else some ⟨wsRunsToDash (asciiLower title), title⟩

/-- The manga record of `ZizParser.parseMangaDetails` (rating omitted,
see `MangaDoc`). -/
structure MangaDetails where
  mangaId : Str
  shareUrl : Str
  primaryTitle : Str
  secondaryTitles : List Str
  thumbnailUrl : Str
  author : Str
  artist : Str
  synopsis : Str
  contentRating : ContentRating
  status : Str
  tagGroups : List TagSection
deriving DecidableEq

/-- `ZizParser.parseMangaDetails`. -/
def parseMangaDetails (doc : MangaDoc) (mangaId : Str) (domain : Str) : MangaDetails :=
  { mangaId := mangaId
    shareUrl := domain ++ "/manga/".toList ++ mangaId ++ "/".toList
    primaryTitle := decodeHTMLEntities (jsTrim doc.titleRaw)
    secondaryTitles := []
    thumbnailUrl := buildFullUrl doc.coverSrc domain
    author := decodeHTMLEntities (jsTrim doc.authorRaw)
    artist := decodeHTMLEntities (jsTrim doc.artistRaw)
    synopsis := decodeHTMLEntities
      (let s := jsTrim doc.synopsisRaw
       if s = [] then "No description available".toList else s)
    contentRating := determineContentRating (genreKeywordsOf doc)
    status := normalizeStatus (jsTrim doc.statusRaw)
    tagGroups := [⟨"genres".toList, "Genres".toList, genreTagsOf doc⟩] }

/-- One matched `.chapter-item` anchor of the Zzizz chapter list: its
href, the `h3` title text and the date text. -/
structure ChapterNode where
  href : Str
  titleRaw : Str
  dateRaw : Str
deriving DecidableEq

/-- A Zzizz chapter record. -/
structure Chapter where
  chapterId : Str
  langCode : Str
  chapNum : Nat
  title : Str
  publishDate : JsDate
  sortingIndex : Int
deriving DecidableEq

/-- The absolute-URL-to-path normalization block of
`ZizParser.parseChapterList`, identical to the GalaxyAction one. -/
def normalizeHref (href : Str) : Str := GA.normalizeHref href

/-- The publish-date computation of `ZizParser.parseChapterList`: the
relative-date regexp match (or the empty string) fed to
`parseRelativeDate`. -/
def publishDateOf (now : JsDate) (dateRaw : Str) : JsDate :=
  let dateText := jsTrim dateRaw
  match findRelDate dateText with
  | some m => parseRelativeDate now m
  | none => parseRelativeDate now []

/-- The record pushed by one iteration of `ZizParser.parseChapterList`;
`cnt` is the number of chapters already collected (`chapters.length`),
so the provisional sorting index is `cnt + 1`. -/
def mkChapter (lang : Str) (now : JsDate) (cnt : Nat) (e : ChapterNode) (cid : Str) : Chapter :=
  let p := extractChapterNumber (jsTrim e.titleRaw) cid
  { chapterId := cid
    langCode := lang
    chapNum := p.1
    title := if p.2 = [] then [] else decodeHTMLEntities p.2
    publishDate := publishDateOf now e.dateRaw
    sortingIndex := (cnt : Int) + 1 }

/-- The collection loop of `ZizParser.parseChapterList`: entries with an
empty or `#`-leading href are skipped; the defensive late
`!chapterId || chapterId === "#"` check of the source is kept although
it can never fire after `ensureTrailingSlash`. -/
def collect (lang : Str) (now : JsDate) : List ChapterNode → Nat → List Chapter
  | [], _ => []
  | e :: rest, cnt =>
    if !e.href.isEmpty && !leads ['#'] e.href then
      let cid := ensureTrailingSlash (normalizeHref e.href)
      if cid = [] ∨ cid = ['#'] then collect lang now rest cnt
      else mkChapter lang now cnt e cid :: collect lang now rest (cnt + 1)
    else collect lang now rest cnt

/-- Stable insertion of one chapter into a list sorted by descending
`chapNum`. -/
def sortInsert (a : Chapter) : List Chapter → List Chapter
  | [] => [a]
  | b :: t => if b.chapNum ≤ a.chapNum then a :: b :: t else b :: sortInsert a t

/-- Models `chapters.sort((a, b) => b.chapNum - a.chapNum)`:
`Array.prototype.sort` is stable and the comparator is consistent (a
total preorder on a numeric key), so every stable sort produces the same
list; this insertion sort is stable for that order. -/
def sortByNumDesc : List Chapter → List Chapter
  | [] => []
  | a :: t => sortInsert a (sortByNumDesc t)

/-- The `forEach` reassignment after the sort:
`chapter.sortingIndex = chapters.length - index`. -/
def reassign (n : Nat) : Nat → List Chapter → List Chapter
  | _, [] => []
  | i, c :: t => { c with sortingIndex := (n : Int) - (i : Int) } :: reassign n (i + 1) t

/-- `ZizParser.parseChapterList`. -/
def parseChapterList (entries : List ChapterNode) (lang : Str) (now : JsDate) : List Chapter :=
  let collected := collect lang now entries 0
  let sorted := sortByNumDesc collected
  reassign sorted.length 0 sorted

/-- One matched `.content-grid a[href*='/manga/']` search entry. -/
structure SearchNode where
  href : Str
  titleRaw : Str
  imgSrc : Str
deriving DecidableEq

/-- A Zzizz search result item. -/
structure SearchResultItem where
  mangaId : Str
  title : Str
  imageUrl : Str
deriving DecidableEq

/-- `ZizParser.parseSearchResults`: empty on the no-results marker; skip
entries with empty title or href (the cleaned id is pushed unchecked). -/
def parseSearchResults (noResults : Bool) (nodes : List SearchNode) : List SearchResultItem :=
  if noResults then []
  else
    nodes.filterMap fun n =>
      let title := jsTrim n.titleRaw
      if title = [] ∨ n.href = [] then none
      else
        some ⟨cleanMangaId n.href, decodeHTMLEntities title,
          buildFullUrl n.imgSrc ("https://zzizz.xyz".toList)⟩

/-- The detail-page URL `ZizParser.parseMangaDetails` constructs for an
id (`domain + "/manga/" + mangaId + "/"`). -/
def shareUrlOf (mangaId : Str) : Str :=
  DOMAIN ++ "/manga/".toList ++ mangaId ++ "/".toList

end ZZ

/-- The well-formedness condition of claim C6 for input URLs: after
stripping the query string some non-`/` character remains (every real
manga URL satisfies this; it rules out degenerate inputs such as `"/"`
or `"?x"`). -/
def wellFormedUrl (url : Str) : Prop :=
  ∃ a ∈ url.takeWhile (fun c => c != '?'), a ≠ '/'

instance (url : Str) : Decidable (wellFormedUrl url) := by
  unfold wellFormedUrl; infer_instance

/-- Erase the publish date of a GalaxyAction chapter record (for stating
clock-independence of everything else). -/
def GA.eraseDate (c : GA.Chapter) : GA.Chapter := { c with publishDate := ⟨0⟩ }

/-- Erase the publish date of a Zzizz chapter record. -/
def ZZ.eraseDate (c : ZZ.Chapter) : ZZ.Chapter := { c with publishDate := ⟨0⟩ }

namespace GA

/-- Render one image-array element with the given quote character choice
(`true` = single quotes, the malformed style; `false` = double quotes). -/
def renderElem (u : Str) (q : Bool) : Str :=
  (if q then apostChar else quoteChar) :: u ++ [if q then apostChar else quoteChar]

/-- Render the comma-separated element list of an image array. -/
def renderElems : List (Str × Bool) → Str
  | [] => []
  | e :: rest =>
    renderElem e.1 e.2 ++ (if rest.isEmpty then [] else ',' :: renderElems rest)

/-- Render an inline-script image array literal: elements, an optional
trailing comma, and the brackets.  `renderArray us false` with all
quote flags `false` is the well-formed JSON rendering; single-quote
flags and/or `trailing = true` give the malformed variants of claim
C9. -/
def renderArray (items : List (Str × Bool)) (trailing : Bool) : Str :=
  '[' :: renderElems items ++ (if trailing then [',', ']'] else [']'])

/-- A url list tagged with all-double-quote flags (the well-formed
rendering of the same urls). -/
def wfItems (urls : List Str) : List (Str × Bool) := urls.map fun u => (u, false)

end GA

/-! ### Generic lemmas about the string helpers -/

theorem mem_getLast? {α} : ∀ (l : List α) (a : α), l.getLast? = some a → a ∈ l := by
  intro l
  induction l with
  | nil => intro a h; simp at h
  | cons x xs ih =>
    intro a h
    cases xs with
    | nil => simp_all
    | cons y ys =>
      rw [List.getLast?_cons_cons] at h
      exact List.mem_cons_of_mem x (ih a h)

theorem takeWhile_all {p : Char → Bool} {l : Str} (h : ∀ a ∈ l, p a = true) :
    l.takeWhile p = l :=
  List.takeWhile_eq_self_iff.mpr h

theorem mem_takeWhile_mem {p : Char → Bool} {l : Str} {a : Char}
    (h : a ∈ l.takeWhile p) : a ∈ l :=
  (List.takeWhile_sublist p).subset h

theorem splitOnChar_ne_nil (sep : Char) : ∀ l : Str, splitOnChar sep l ≠ [] := by
  intro l
  induction l with
  | nil => simp [splitOnChar]
  | cons c cs ih =>
    simp only [splitOnChar]
    split
    · simp
    · split
      · simp
      · simp

theorem splitOnChar_no_sep (sep : Char) :
    ∀ l : Str, ∀ p ∈ splitOnChar sep l, sep ∉ p := by
  intro l
  induction l with
  | nil => intro p hp; simp [splitOnChar] at hp; simp [hp]
  | cons c cs ih =>
    intro p hp
    simp only [splitOnChar] at hp
    by_cases hc : c = sep
    · rw [if_pos hc] at hp
      rcases List.mem_cons.mp hp with h | h
      · simp [h]
      · exact ih p h
    · rw [if_neg hc] at hp
      rcases hr : splitOnChar sep cs with _ | ⟨h0, t⟩
      · exact absurd hr (splitOnChar_ne_nil sep cs)
      · rw [hr] at hp
        rcases List.mem_cons.mp hp with h | h
        · subst h
          intro hmem
          rcases List.mem_cons.mp hmem with h' | h'
          · exact hc h'.symm
          · exact ih h0 (hr ▸ List.mem_cons_self h0 t) h'
        · exact ih p (hr ▸ List.mem_cons_of_mem h0 h)

theorem splitOnChar_subset (sep : Char) :
    ∀ l : Str, ∀ p ∈ splitOnChar sep l, ∀ a ∈ p, a ∈ l := by
  intro l
  induction l with
  | nil => intro p hp; simp [splitOnChar] at hp; simp [hp]
  | cons c cs ih =>
    intro p hp a ha
    simp only [splitOnChar] at hp
    by_cases hc : c = sep
    · rw [if_pos hc] at hp
      rcases List.mem_cons.mp hp with h | h
      · subst h; simp at ha
      · exact List.mem_cons_of_mem c (ih p h a ha)
    · rw [if_neg hc] at hp
      rcases hr : splitOnChar sep cs with _ | ⟨h0, t⟩
      · exact absurd hr (splitOnChar_ne_nil sep cs)
      · rw [hr] at hp
        rcases List.mem_cons.mp hp with h | h
        · subst h
          rcases List.mem_cons.mp ha with h' | h'
          · simp [h']
          · exact List.mem_cons_of_mem c
              (ih h0 (hr ▸ List.mem_cons_self h0 t) a h')
        · exact List.mem_cons_of_mem c
            (ih p (hr ▸ List.mem_cons_of_mem h0 h) a ha)

theorem splitOnChar_single (sep : Char) :
    ∀ l : Str, (∀ a ∈ l, a ≠ sep) → splitOnChar sep l = [l] := by
  intro l
  induction l with
  | nil => intro; rfl
  | cons c cs ih =>
    intro h
    have hc : ¬c = sep := h c (List.mem_cons_self c cs)
    simp only [splitOnChar, if_neg hc]
    rw [ih fun a ha => h a (List.mem_cons_of_mem c ha)]

theorem splitOnChar_all_sep (sep : Char) :
    ∀ l : Str, (∀ a ∈ l, a = sep) → ∀ p ∈ splitOnChar sep l, p = [] := by
  intro l
  induction l with
  | nil => intro _ p hp; simp [splitOnChar] at hp; exact hp
  | cons c cs ih =>
    intro h p hp
    have hc : c = sep := h c (List.mem_cons_self c cs)
    simp only [splitOnChar, if_pos hc] at hp
    rcases List.mem_cons.mp hp with h' | h'
    · exact h'
    · exact ih (fun a ha => h a (List.mem_cons_of_mem c ha)) p h'

theorem filter_splitOnChar_nil {sep : Char} {l : Str} (h : ∀ a ∈ l, a = sep) :
    (splitOnChar sep l).filter (fun p => !p.isEmpty) = [] := by
  rw [List.filter_eq_nil_iff]
  intro p hp
  have := splitOnChar_all_sep sep l h p hp
  simp [this]

theorem filter_splitOnChar_ne_nil {sep : Char} :
    ∀ {l : Str}, (∃ a ∈ l, a ≠ sep) →
      (splitOnChar sep l).filter (fun p => !p.isEmpty) ≠ [] := by
  intro l
  induction l with
  | nil => intro h; simp at h
  | cons c cs ih =>
    intro h
    by_cases hc : c = sep
    · simp only [splitOnChar, if_pos hc]
      have hcs : ∃ a ∈ cs, a ≠ sep := by
        rcases h with ⟨a, ha, hane⟩
        rcases List.mem_cons.mp ha with h' | h'
        · exact absurd (h' ▸ hc) hane
        · exact ⟨a, h', hane⟩
      simpa using ih hcs
    · simp only [splitOnChar, if_neg hc]
      rcases hr : splitOnChar sep cs with _ | ⟨h0, t⟩
      · exact absurd hr (splitOnChar_ne_nil sep cs)
      · simp

theorem splitOnChar_append_sep (sep : Char) :
    ∀ a b : Str, splitOnChar sep (a ++ sep :: b) =
      splitOnChar sep a ++ splitOnChar sep b := by
  intro a b
  induction a with
  | nil => simp [splitOnChar]
  | cons c cs ih =>
    rw [List.cons_append]
    by_cases hc : c = sep
    · simp only [splitOnChar, if_pos hc, ih]
      rfl
    · simp only [splitOnChar, if_neg hc, ih]
      rcases hr : splitOnChar sep cs with _ | ⟨h0, t⟩
      · exact absurd hr (splitOnChar_ne_nil sep cs)
      · simp

/-! ### Properties of the id cleaners (claims C6, C7) -/

theorem GA_idCleaner_of_slug {p : Str} (hne : p ≠ [])
    (hp : ∀ a ∈ p, a ≠ '/' ∧ a ≠ '?') : GA.idCleaner p = p := by
  unfold GA.idCleaner
  rw [if_neg hne]
  have htw : p.takeWhile (fun c => c != '?') = p := by
    apply takeWhile_all
    intro a ha
    simpa [bne_iff_ne] using (hp a ha).2
  simp only [htw]
  rw [splitOnChar_single '/' p (fun a ha => (hp a ha).1)]
  have : !p.isEmpty = true := by simpa [List.isEmpty_iff] using hne
  simp [this, hne]

theorem GA_idCleaner_of_all_slash {l : Str} (h : ∀ a ∈ l, a = '/') :
    GA.idCleaner l = l := by
  by_cases hl : l = []
  · subst hl; rfl
  · unfold GA.idCleaner
    rw [if_neg hl]
    have htw : l.takeWhile (fun c => c != '?') = l := by
      apply takeWhile_all
      intro a ha
      have := h a ha
      subst this
      decide
    simp only [htw]
    rw [filter_splitOnChar_nil h]
    simp

theorem GA_idCleaner_output (url : Str) :
    (GA.idCleaner url ≠ [] ∧ ∀ a ∈ GA.idCleaner url, a ≠ '/' ∧ a ≠ '?') ∨
    (∀ a ∈ GA.idCleaner url, a = '/') := by
  by_cases hu : url = []
  · right; subst hu; intro a ha; simp [GA.idCleaner] at ha
  · have hnoq : ∀ a ∈ url.takeWhile (fun c => c != '?'), a ≠ '?' := by
      intro a ha
      simpa [bne_iff_ne] using List.mem_takeWhile_imp ha
    rcases hfil : (splitOnChar '/' (url.takeWhile (fun c => c != '?'))).filter
        (fun p => !p.isEmpty) with _ | ⟨q, qs⟩
    · right
      have hall : ∀ a ∈ url.takeWhile (fun c => c != '?'), a = '/' := by
        by_contra hcon
        push_neg at hcon
        obtain ⟨a, ha, hane⟩ := hcon
        exact filter_splitOnChar_ne_nil ⟨a, ha, hane⟩ hfil
      have hres : GA.idCleaner url = url.takeWhile (fun c => c != '?') := by
        unfold GA.idCleaner
        rw [if_neg hu]
        simp only [hfil]
        rfl
      rw [hres]
      exact hall
    · left
      rcases h2 : (q :: qs).getLast? with _ | p
      · simp at h2
      have hres : GA.idCleaner url = p := by
        unfold GA.idCleaner
        rw [if_neg hu]
        simp only [hfil, h2]
      have hpmem : p ∈ (q :: qs) := mem_getLast? _ _ h2
      have hpf := List.mem_filter.mp (hfil ▸ hpmem)
      constructor
      · rw [hres]
        intro hnil
        rw [hnil] at hpf
        simp at hpf
      · rw [hres]
        intro a ha
        constructor
        · intro hslash
          exact splitOnChar_no_sep '/' _ p hpf.1 (hslash ▸ ha)
        · exact hnoq a (splitOnChar_subset '/' _ p hpf.1 a ha)

theorem GA_idCleaner_idem (url : Str) :
    GA.idCleaner (GA.idCleaner url) = GA.idCleaner url := by
  rcases GA_idCleaner_output url with ⟨hne, hp⟩ | hall
  · exact GA_idCleaner_of_slug hne hp
  · exact GA_idCleaner_of_all_slash hall

theorem GA_idCleaner_no_query (url : Str) : '?' ∉ GA.idCleaner url := by
  intro h
  rcases GA_idCleaner_output url with ⟨_, hp⟩ | hall
  · exact (hp _ h).2 rfl
  · exact absurd (hall _ h) (by decide)

theorem GA_idCleaner_wellFormed (url : Str) (h : wellFormedUrl url) :
    GA.idCleaner url ≠ [] ∧ ∀ a ∈ GA.idCleaner url, a ≠ '/' ∧ a ≠ '?' := by
  rcases GA_idCleaner_output url with hgood | hall
  · exact hgood
  · exfalso
    obtain ⟨a, ha, hane⟩ := h
    by_cases hu : url = []
    · subst hu; simp at ha
    · have hres : GA.idCleaner url = url.takeWhile (fun c => c != '?') := by
        unfold GA.idCleaner
        rw [if_neg hu]
        have hfil : (splitOnChar '/' (url.takeWhile (fun c => c != '?'))).filter
            (fun p => !p.isEmpty) ≠ [] := filter_splitOnChar_ne_nil ⟨a, ha, hane⟩
        -- the all-slash characterization contradicts a surviving segment
        rcases hfil2 : (splitOnChar '/' (url.takeWhile (fun c => c != '?'))).filter
            (fun p => !p.isEmpty) with _ | ⟨q, qs⟩
        · exact absurd hfil2 hfil
        · exfalso
          rcases h2 : (q :: qs).getLast? with _ | p
          · simp at h2
          have hpmem : p ∈ (q :: qs) := mem_getLast? _ _ h2
          have hpf := List.mem_filter.mp (hfil2 ▸ hpmem)
          have hpne : p ≠ [] := by
            intro hnil; rw [hnil] at hpf; simp at hpf
          obtain ⟨b, hb⟩ := List.exists_mem_of_ne_nil p hpne
          have hres' : GA.idCleaner url = p := by
            unfold GA.idCleaner
            rw [if_neg hu]
            simp only [hfil2, h2]
          have := hall b (hres' ▸ hb)
          exact splitOnChar_no_sep '/' _ p hpf.1 (this ▸ hb)
      have := hall a (hres ▸ ha)
      exact hane this

theorem leads_head_eq {p : Char} {ps : Str} {c : Char} {cs : Str}
    (h : leads (p :: ps) (c :: cs) = true) : p = c ∧ leads ps cs = true := by
  simpa [leads] using h

theorem leads_append_self (p x : Str) : leads p (p ++ x) = true := by
  induction p with
  | nil => simp [leads]
  | cons c cs ih => simpa [leads] using ih

theorem leads_mem {p : Char} {ps l : Str} (h : leads (p :: ps) l = true) : p ∈ l := by
  cases l with
  | nil => simp [leads] at h
  | cons c cs =>
    have := (leads_head_eq h).1
    simp [this]

theorem slugAt_some {l m : Str} (h : ZZ.slugAt l = some m) :
    m ≠ [] ∧ (∀ a ∈ m, a ≠ '/') ∧ (∀ a ∈ m, a ∈ l) := by
  unfold ZZ.slugAt at h
  split at h
  · dsimp only at h
    split at h
    · exact absurd h (by simp)
    · rename_i hcap
      have hm : m = (l.drop 7).takeWhile (fun c => c != '/') := by
        simpa using h.symm
      refine ⟨hm ▸ hcap, ?_, ?_⟩
      · intro a ha
        have := List.mem_takeWhile_imp (hm ▸ ha)
        simpa [bne_iff_ne] using this
      · intro a ha
        exact List.mem_of_mem_drop (mem_takeWhile_mem (hm ▸ ha))
  · split at h
    · dsimp only at h
      split at h
      · exact absurd h (by simp)
      · rename_i hcap
        have hm : m = (l.drop 14).takeWhile (fun c => c != '/') := by
          simpa using h.symm
        refine ⟨hm ▸ hcap, ?_, ?_⟩
        · intro a ha
          have := List.mem_takeWhile_imp (hm ▸ ha)
          simpa [bne_iff_ne] using this
        · intro a ha
          exact List.mem_of_mem_drop (mem_takeWhile_mem (hm ▸ ha))
    · exact absurd h (by simp)

theorem findMangaSlug_some {m : Str} :
    ∀ {l : Str}, ZZ.findMangaSlug l = some m →
      m ≠ [] ∧ (∀ a ∈ m, a ≠ '/') ∧ (∀ a ∈ m, a ∈ l) := by
  intro l
  induction l with
  | nil => intro h; simp [ZZ.findMangaSlug] at h
  | cons c cs ih =>
    intro h
    unfold ZZ.findMangaSlug at h
    rcases hs : ZZ.slugAt (c :: cs) with _ | s
    · rw [hs] at h
      obtain ⟨h1, h2, h3⟩ := ih h
      exact ⟨h1, h2, fun a ha => List.mem_cons_of_mem c (h3 a ha)⟩
    · rw [hs] at h
      have hm : s = m := by simpa using h
      subst hm
      exact slugAt_some hs

theorem slugAt_none_of_no_slash {l : Str} (h : '/' ∉ l) : ZZ.slugAt l = none := by
  unfold ZZ.slugAt
  rcases hl : leads ZZ.mangaLit l with _ | _
  · rcases hr : leads ZZ.readerLit l with _ | _
    · simp [hl, hr]
    · exact absurd (leads_mem (by simpa [ZZ.readerLit] using hr)) h
  · exact absurd (leads_mem (by simpa [ZZ.mangaLit] using hl)) h

theorem findMangaSlug_none_of_no_slash : ∀ {l : Str}, '/' ∉ l → ZZ.findMangaSlug l = none := by
  intro l
  induction l with
  | nil => intro _; rfl
  | cons c cs ih =>
    intro h
    unfold ZZ.findMangaSlug
    rw [slugAt_none_of_no_slash h]
    exact ih fun hm => h (List.mem_cons_of_mem c hm)

theorem stripTrailingSlash_subset {l : Str} {a : Char}
    (h : a ∈ ZZ.stripTrailingSlash l) : a ∈ l := by
  unfold ZZ.stripTrailingSlash at h
  split at h
  · exact List.dropLast_sublist l |>.subset h
  · exact h

theorem stripTrailingSlash_of_no_slash {l : Str} (h : '/' ∉ l) :
    ZZ.stripTrailingSlash l = l := by
  have hng : ¬l.getLast? = some '/' := fun hg => h (mem_getLast? _ _ hg)
  unfold ZZ.stripTrailingSlash
  rw [if_neg hng]

theorem ZZ_cleanMangaId_of_slug {p : Str} (hne : p ≠ [])
    (hp : ∀ a ∈ p, a ≠ '/' ∧ a ≠ '?') : ZZ.cleanMangaId p = p := by
  unfold ZZ.cleanMangaId
  rw [if_neg hne]
  have htw : p.takeWhile (fun c => c != '?') = p := by
    apply takeWhile_all
    intro a ha
    simpa [bne_iff_ne] using (hp a ha).2
  have hnos : '/' ∉ p := fun hm => (hp _ hm).1 rfl
  simp only [htw, stripTrailingSlash_of_no_slash hnos,
    findMangaSlug_none_of_no_slash hnos]
  rw [splitOnChar_single '/' p (fun a ha => (hp a ha).1)]
  have : !p.isEmpty = true := by simpa [List.isEmpty_iff] using hne
  simp [this, hne]

theorem ZZ_cleanMangaId_output (url : Str) :
    ZZ.cleanMangaId url = [] ∨
    (ZZ.cleanMangaId url ≠ [] ∧ ∀ a ∈ ZZ.cleanMangaId url, a ≠ '/' ∧ a ≠ '?') := by
  by_cases hu : url = []
  · left; subst hu; rfl
  · have hnoq : ∀ a ∈ ZZ.stripTrailingSlash (url.takeWhile (fun c => c != '?')), a ≠ '?' := by
      intro a ha
      have := List.mem_takeWhile_imp (stripTrailingSlash_subset ha)
      simpa [bne_iff_ne] using this
    unfold ZZ.cleanMangaId
    rw [if_neg hu]
    rcases hf : ZZ.findMangaSlug (ZZ.stripTrailingSlash (url.takeWhile (fun c => c != '?')))
        with _ | m
    · rcases hlast : ((splitOnChar '/'
          (ZZ.stripTrailingSlash (url.takeWhile (fun c => c != '?')))).filter
          (fun p => !p.isEmpty)).getLast? with _ | p
      · left; simp [hf, hlast]
      · right
        simp only [hf, hlast]
        have hpmem := mem_getLast? _ _ hlast
        have hpf := List.mem_filter.mp hpmem
        constructor
        · intro hnil; rw [hnil] at hpf; simp at hpf
        · intro a ha
          refine ⟨fun hs => splitOnChar_no_sep '/' _ p hpf.1 (hs ▸ ha), ?_⟩
          exact hnoq a (splitOnChar_subset '/' _ p hpf.1 a ha)
    · right
      simp only [hf]
      obtain ⟨h1, h2, h3⟩ := findMangaSlug_some hf
      exact ⟨h1, fun a ha => ⟨h2 a ha, hnoq a (h3 a ha)⟩⟩

theorem ZZ_cleanMangaId_idem (url : Str) :
    ZZ.cleanMangaId (ZZ.cleanMangaId url) = ZZ.cleanMangaId url := by
  rcases ZZ_cleanMangaId_output url with hnil | ⟨hne, hp⟩
  · rw [hnil]; rfl
  · exact ZZ_cleanMangaId_of_slug hne hp

theorem ZZ_cleanMangaId_no_query (url : Str) : '?' ∉ ZZ.cleanMangaId url := by
  intro h
  rcases ZZ_cleanMangaId_output url with hnil | ⟨_, hp⟩
  · rw [hnil] at h; simp at h
  · exact (hp _ h).2 rfl

theorem ZZ_cleanMangaId_no_trailing (url : Str) :
    (ZZ.cleanMangaId url).getLast? ≠ some '/' := by
  intro h
  rcases ZZ_cleanMangaId_output url with hnil | ⟨_, hp⟩
  · rw [hnil] at h; simp at h
  · exact (hp _ (mem_getLast? _ _ h)).1 rfl

theorem GA_idCleaner_append_slug (pre id : Str) (hne : id ≠ [])
    (hid : ∀ a ∈ id, a ≠ '/' ∧ a ≠ '?') (hpre : ∀ a ∈ pre, a ≠ '?') :
    GA.idCleaner (pre ++ '/' :: id) = id := by
  have hurl : pre ++ '/' :: id ≠ [] := by simp
  unfold GA.idCleaner
  rw [if_neg hurl]
  have htw : (pre ++ '/' :: id).takeWhile (fun c => c != '?') = pre ++ '/' :: id := by
    apply takeWhile_all
    intro a ha
    rcases List.mem_append.mp ha with h | h
    · simpa [bne_iff_ne] using hpre a h
    · rcases List.mem_cons.mp h with h' | h'
      · subst h'; decide
      · simpa [bne_iff_ne] using (hid a h').2
  simp only [htw]
  rw [splitOnChar_append_sep '/' pre id,
    splitOnChar_single '/' id (fun a ha => (hid a ha).1), List.filter_append]
  have hfil : (([id] : List Str).filter (fun p => !p.isEmpty)) = [id] := by
    simp [List.isEmpty_iff, hne]
  rw [hfil, List.getLast?_append_of_ne_nil _ (by simp : ([id] : List Str) ≠ [])]
  rfl

theorem findMangaSlug_cons_of_fail {c : Char} {cs : Str}
    (h : ZZ.slugAt (c :: cs) = none) :
    ZZ.findMangaSlug (c :: cs) = ZZ.findMangaSlug cs := by
  have heq : ZZ.findMangaSlug (c :: cs) =
      match ZZ.slugAt (c :: cs) with
      | some s => some s
      | none => ZZ.findMangaSlug cs := rfl
  rw [heq, h]

theorem slugAt_none_two (a b : Char) (rest : Str)
    (h : a ≠ '/' ∨ (b ≠ 'm' ∧ b ≠ 'r')) :
    ZZ.slugAt (a :: b :: rest) = none := by
  have hmlit : ZZ.mangaLit = '/' :: 'm' :: "anga/".toList := by decide
  have hrlit : ZZ.readerLit = '/' :: 'r' :: "eader/manga/".toList := by decide
  have hm : ¬leads ZZ.mangaLit (a :: b :: rest) = true := by
    rw [hmlit]
    intro hl
    obtain ⟨he1, hl2⟩ := leads_head_eq hl
    obtain ⟨he2, _⟩ := leads_head_eq hl2
    rcases h with h | ⟨h2, _⟩
    · exact h he1.symm
    · exact h2 he2.symm
  have hr : ¬leads ZZ.readerLit (a :: b :: rest) = true := by
    rw [hrlit]
    intro hl
    obtain ⟨he1, hl2⟩ := leads_head_eq hl
    obtain ⟨he2, _⟩ := leads_head_eq hl2
    rcases h with h | ⟨_, h3⟩
    · exact h he1.symm
    · exact h3 he2.symm
  unfold ZZ.slugAt
  rw [if_neg hm, if_neg hr]

theorem findMangaSlug_lit (id : Str) (hne : id ≠ []) (hid : ∀ a ∈ id, a ≠ '/') :
    ZZ.findMangaSlug ('/' :: 'm' :: 'a' :: 'n' :: 'g' :: 'a' :: '/' :: id) = some id := by
  have hml : ZZ.mangaLit = ['/', 'm', 'a', 'n', 'g', 'a', '/'] := by decide
  have hs : ZZ.slugAt ('/' :: 'm' :: 'a' :: 'n' :: 'g' :: 'a' :: '/' :: id) = some id := by
    unfold ZZ.slugAt
    have hlead : leads ZZ.mangaLit ('/' :: 'm' :: 'a' :: 'n' :: 'g' :: 'a' :: '/' :: id) = true := by
      have hform : ('/' :: 'm' :: 'a' :: 'n' :: 'g' :: 'a' :: '/' :: id) = ZZ.mangaLit ++ id := by
        rw [hml]; rfl
      rw [hform]
      exact leads_append_self _ _
    rw [if_pos hlead]
    have htw : id.takeWhile (fun c => c != '/') = id := by
      apply takeWhile_all
      intro a ha
      simpa [bne_iff_ne] using hid a ha
    have hdrop : ('/' :: 'm' :: 'a' :: 'n' :: 'g' :: 'a' :: '/' :: id).drop 7 = id := rfl
    dsimp only
    rw [hdrop, htw, if_neg hne]
  unfold ZZ.findMangaSlug
  rw [hs]

theorem findMangaSlug_zz_share (id : Str) (hne : id ≠ []) (hid : ∀ a ∈ id, a ≠ '/') :
    ZZ.findMangaSlug (ZZ.DOMAIN ++ ZZ.mangaLit ++ id) = some id := by
  have hshape : ZZ.DOMAIN ++ ZZ.mangaLit ++ id =
      'h' :: 't' :: 't' :: 'p' :: 's' :: ':' :: '/' :: '/' :: 'z' :: 'z' :: 'i' :: 'z' ::
      'z' :: '.' :: 'x' :: 'y' :: 'z' :: '/' :: 'm' :: 'a' :: 'n' :: 'g' :: 'a' :: '/' :: id := by
    have hd : ZZ.DOMAIN =
        ['h', 't', 't', 'p', 's', ':', '/', '/', 'z', 'z', 'i', 'z', 'z', '.', 'x', 'y', 'z'] := by
      decide
    have hml : ZZ.mangaLit = ['/', 'm', 'a', 'n', 'g', 'a', '/'] := by decide
    rw [List.append_assoc, hd, hml]
    rfl
  rw [hshape]
  rw [findMangaSlug_cons_of_fail (slugAt_none_two 'h' 't' _ (by decide))]
  rw [findMangaSlug_cons_of_fail (slugAt_none_two 't' 't' _ (by decide))]
  rw [findMangaSlug_cons_of_fail (slugAt_none_two 't' 'p' _ (by decide))]
  rw [findMangaSlug_cons_of_fail (slugAt_none_two 'p' 's' _ (by decide))]
  rw [findMangaSlug_cons_of_fail (slugAt_none_two 's' ':' _ (by decide))]
  rw [findMangaSlug_cons_of_fail (slugAt_none_two ':' '/' _ (by decide))]
  rw [findMangaSlug_cons_of_fail (slugAt_none_two '/' '/' _ (by decide))]
  rw [findMangaSlug_cons_of_fail (slugAt_none_two '/' 'z' _ (by decide))]
  rw [findMangaSlug_cons_of_fail (slugAt_none_two 'z' 'z' _ (by decide))]
  rw [findMangaSlug_cons_of_fail (slugAt_none_two 'z' 'i' _ (by decide))]
  rw [findMangaSlug_cons_of_fail (slugAt_none_two 'i' 'z' _ (by decide))]
  rw [findMangaSlug_cons_of_fail (slugAt_none_two 'z' 'z' _ (by decide))]
  rw [findMangaSlug_cons_of_fail (slugAt_none_two 'z' '.' _ (by decide))]
  rw [findMangaSlug_cons_of_fail (slugAt_none_two '.' 'x' _ (by decide))]
  rw [findMangaSlug_cons_of_fail (slugAt_none_two 'x' 'y' _ (by decide))]
  rw [findMangaSlug_cons_of_fail (slugAt_none_two 'y' 'z' _ (by decide))]
  rw [findMangaSlug_cons_of_fail (slugAt_none_two 'z' '/' _ (by decide))]
  exact findMangaSlug_lit id hne hid

theorem ZZ_roundtrip (id : Str) (hne : id ≠ []) (hid : ∀ a ∈ id, a ≠ '/' ∧ a ≠ '?') :
    ZZ.cleanMangaId (ZZ.shareUrlOf id) = id := by
  have hmem : '/' ∈ ZZ.shareUrlOf id := by
    unfold ZZ.shareUrlOf
    refine List.mem_append.mpr (Or.inr ?_)
    decide
  have hurl : ZZ.shareUrlOf id ≠ [] := by
    intro hc
    rw [hc] at hmem
    simp at hmem
  unfold ZZ.cleanMangaId
  rw [if_neg hurl]
  have htw : (ZZ.shareUrlOf id).takeWhile (fun c => c != '?') = ZZ.shareUrlOf id := by
    apply takeWhile_all
    intro a ha
    unfold ZZ.shareUrlOf at ha
    have hD : ∀ x ∈ ZZ.DOMAIN, x ≠ '?' := by decide
    have hM : ∀ x ∈ "/manga/".toList, x ≠ '?' := by decide
    have hS : ∀ x ∈ "/".toList, x ≠ '?' := by decide
    rcases List.mem_append.mp ha with h | h
    · rcases List.mem_append.mp h with h' | h'
      · rcases List.mem_append.mp h' with h'' | h''
        · simpa [bne_iff_ne] using hD a h''
        · simpa [bne_iff_ne] using hM a h''
      · simpa [bne_iff_ne] using (hid a h').2
    · simpa [bne_iff_ne] using hS a h
  rw [htw]
  have hshare : ZZ.shareUrlOf id = (ZZ.DOMAIN ++ ZZ.mangaLit ++ id) ++ ['/'] := by
    unfold ZZ.shareUrlOf ZZ.mangaLit
    rw [show "/".toList = ['/'] from by decide]
  rw [hshare]
  have hstrip : ZZ.stripTrailingSlash ((ZZ.DOMAIN ++ ZZ.mangaLit ++ id) ++ ['/'])
      = ZZ.DOMAIN ++ ZZ.mangaLit ++ id := by
    unfold ZZ.stripTrailingSlash
    rw [List.getLast?_append_of_ne_nil _ (by simp : (['/'] : Str) ≠ [])]
    rw [if_pos (by decide : (['/'] : Str).getLast? = some '/')]
    rw [List.dropLast_concat]
  rw [hstrip]
  dsimp only
  rw [findMangaSlug_zz_share id hne (fun a ha => (hid a ha).1)]

theorem GA_search_mangaId {nodes : List GA.SearchNode} {item : GA.SearchResultItem}
    (h : item ∈ GA.parseSearchResults nodes) :
    (∃ href, item.mangaId = GA.idCleaner href) ∧ item.mangaId ≠ [] := by
  obtain ⟨n, _, hf⟩ := List.mem_filterMap.mp h
  dsimp only at hf
  split at hf
  · exact absurd hf (by simp)
  · split at hf
    · exact absurd hf (by simp)
    · rename_i h2
      have heq := Option.some.inj hf
      push_neg at h2
      refine ⟨⟨n.href, ?_⟩, ?_⟩
      · rw [← heq]
      · rw [← heq]
        exact h2.1

theorem ZZ_search_mangaId {noRes : Bool} {nodes : List ZZ.SearchNode}
    {item : ZZ.SearchResultItem} (h : item ∈ ZZ.parseSearchResults noRes nodes) :
    ∃ href, item.mangaId = ZZ.cleanMangaId href := by
  unfold ZZ.parseSearchResults at h
  split at h
  · simp at h
  · obtain ⟨n, _, hf⟩ := List.mem_filterMap.mp h
    dsimp only at hf
    split at hf
    · exact absurd hf (by simp)
    · have heq := Option.some.inj hf
      exact ⟨n.href, by rw [← heq]⟩

/-- C6: both id cleaners are idempotent, and on well-formed URLs their
output contains no query string and no trailing slash.  Idempotence and
the absence of `?` are proved for arbitrary strings; the well-formedness
hypothesis is needed only for the GalaxyAction no-trailing-slash part
(a degenerate all-slash input such as `"/"` is returned unchanged
there), while the Zzizz cleaner never emits a trailing slash. -/
theorem claim_C6 (url : Str) (h : wellFormedUrl url) :
    GA.idCleaner (GA.idCleaner url) = GA.idCleaner url ∧
    ZZ.cleanMangaId (ZZ.cleanMangaId url) = ZZ.cleanMangaId url ∧
    '?' ∉ GA.idCleaner url ∧
    '?' ∉ ZZ.cleanMangaId url ∧
    (GA.idCleaner url).getLast? ≠ some '/' ∧
    (ZZ.cleanMangaId url).getLast? ≠ some '/' := by
  refine ⟨GA_idCleaner_idem url, ZZ_cleanMangaId_idem url, GA_idCleaner_no_query url,
    ZZ_cleanMangaId_no_query url, ?_, ZZ_cleanMangaId_no_trailing url⟩
  obtain ⟨_, hp⟩ := GA_idCleaner_wellFormed url h
  intro hg
  exact (hp _ (mem_getLast? _ _ hg)).1 rfl

/-- C6 witness: the property instantiated at a concrete well-formed manga
URL with a query string and a trailing slash. -/
theorem claim_C6_witness :
    wellFormedUrl ("https://galaxyaction.net/manga/solo-leveling/?page=2".toList) ∧
    (GA.idCleaner (GA.idCleaner ("https://galaxyaction.net/manga/solo-leveling/?page=2".toList)) =
      GA.idCleaner ("https://galaxyaction.net/manga/solo-leveling/?page=2".toList) ∧
    ZZ.cleanMangaId (ZZ.cleanMangaId ("https://galaxyaction.net/manga/solo-leveling/?page=2".toList)) =
      ZZ.cleanMangaId ("https://galaxyaction.net/manga/solo-leveling/?page=2".toList) ∧
    '?' ∉ GA.idCleaner ("https://galaxyaction.net/manga/solo-leveling/?page=2".toList) ∧
    '?' ∉ ZZ.cleanMangaId ("https://galaxyaction.net/manga/solo-leveling/?page=2".toList) ∧
    (GA.idCleaner ("https://galaxyaction.net/manga/solo-leveling/?page=2".toList)).getLast? ≠ some '/' ∧
    (ZZ.cleanMangaId ("https://galaxyaction.net/manga/solo-leveling/?page=2".toList)).getLast? ≠ some '/') :=
  ⟨by decide, claim_C6 _ (by decide)⟩

/-- C7 counterexample: the claim quantifies over *every* id the
extractors produce.  On a search document whose entry has href `"/"`
(and a title), `parseSearchResults` produces the id `"/"`, and cleaning
the share URL built from it yields `"manga"`, not `"/"` — the round-trip
fails for a produced id. -/
theorem claim_C7_counterexample :
    ∃ item ∈ GA.parseSearchResults
      [⟨"/".toList, "X".toList, [], []⟩],
      GA.idCleaner (GA.shareUrlOf item.mangaId) ≠ item.mangaId := by
  decide

/-- C7 (amended): the round-trip `idCleaner (shareUrlFor id) = id` holds
for every produced id that is a genuine slug — non-empty and free of
`/` and `?` — on both sites; ids produced by the search extractors
round-trip whenever they are such slugs (for GalaxyAction: whenever the
id has a non-slash character, for Zzizz: whenever it is non-empty).
Degenerate hrefs such as `"/"` produce ids that break the round-trip
(see the counterexample). -/
theorem claim_C7 :
    (∀ id : Str, id ≠ [] → (∀ a ∈ id, a ≠ '/' ∧ a ≠ '?') →
      GA.idCleaner (GA.shareUrlOf id) = id ∧
      ZZ.cleanMangaId (ZZ.shareUrlOf id) = id) ∧
    (∀ (nodes : List GA.SearchNode) (item : GA.SearchResultItem),
      item ∈ GA.parseSearchResults nodes → (∃ a ∈ item.mangaId, a ≠ '/') →
      GA.idCleaner (GA.shareUrlOf item.mangaId) = item.mangaId) ∧
    (∀ (noRes : Bool) (nodes : List ZZ.SearchNode) (item : ZZ.SearchResultItem),
      item ∈ ZZ.parseSearchResults noRes nodes → item.mangaId ≠ [] →
      ZZ.cleanMangaId (ZZ.shareUrlOf item.mangaId) = item.mangaId) := by
  have hGA : ∀ id : Str, id ≠ [] → (∀ a ∈ id, a ≠ '/' ∧ a ≠ '?') →
      GA.idCleaner (GA.shareUrlOf id) = id := by
    intro id hne hid
    have hsplit : GA.shareUrlOf id = (GA.DOMAIN ++ "/manga".toList) ++ '/' :: id := by
      unfold GA.shareUrlOf
      rw [show "/manga/".toList = "/manga".toList ++ ['/'] from by decide]
      simp [List.append_assoc]
    rw [hsplit]
    exact GA_idCleaner_append_slug _ id hne hid (by decide)
  refine ⟨fun id hne hid => ⟨hGA id hne hid, ZZ_roundtrip id hne hid⟩, ?_, ?_⟩
  · intro nodes item hmem hslash
    obtain ⟨⟨href, hhr⟩, hne⟩ := GA_search_mangaId hmem
    rcases GA_idCleaner_output href with ⟨_, hp⟩ | hall
    · exact hGA item.mangaId hne (hhr ▸ hp)
    · exfalso
      obtain ⟨a, ha, hane⟩ := hslash
      exact hane (hall a (hhr ▸ ha))
  · intro noRes nodes item hmem hne
    obtain ⟨href, hhr⟩ := ZZ_search_mangaId hmem
    rcases ZZ_cleanMangaId_output href with hnil | ⟨_, hp⟩
    · exact absurd (hhr.trans hnil) hne
    · exact ZZ_roundtrip item.mangaId hne (hhr ▸ hp)

/-- C7 witness: the amended round-trip at the concrete produced slug
`solo-leveling`, for both sites. -/
theorem claim_C7_witness :
    ("solo-leveling".toList ≠ [] ∧ ∀ a ∈ "solo-leveling".toList, a ≠ '/' ∧ a ≠ '?') ∧
    GA.idCleaner (GA.shareUrlOf ("solo-leveling".toList)) = "solo-leveling".toList ∧
    ZZ.cleanMangaId (ZZ.shareUrlOf ("solo-leveling".toList)) = "solo-leveling".toList :=
  ⟨⟨by decide, by decide⟩, claim_C7.1 _ (by decide) (by decide)⟩

/-! ### Content rating and status normalization (claims C1, C4) -/

theorem GA_contentRating_cases (kws : List Str) :
    (GA.contentRatingOf kws = .adult ↔ ∃ k ∈ kws, k ∈ GA.adultKeywords) ∧
    (GA.contentRatingOf kws = .mature ↔
      (¬∃ k ∈ kws, k ∈ GA.adultKeywords) ∧ ∃ k ∈ kws, k ∈ GA.matureKeywords) ∧
    (GA.contentRatingOf kws = .everyone ↔
      (¬∃ k ∈ kws, k ∈ GA.adultKeywords) ∧ ¬∃ k ∈ kws, k ∈ GA.matureKeywords) := by
  unfold GA.contentRatingOf
  by_cases ha : ∃ k ∈ kws, k ∈ GA.adultKeywords
  · simp [ha]
  · by_cases hm : ∃ k ∈ kws, k ∈ GA.matureKeywords
    · simp [ha, hm]
    · simp [ha, hm]

theorem ZZ_contentRating_cases (genres : List Str) :
    (ZZ.determineContentRating genres = .adult ↔
      ∃ k ∈ genres.map asciiLower, k ∈ ZZ.CONTENT_RATING_ADULT) ∧
    (ZZ.determineContentRating genres = .mature ↔
      (¬∃ k ∈ genres.map asciiLower, k ∈ ZZ.CONTENT_RATING_ADULT) ∧
      ∃ k ∈ genres.map asciiLower, k ∈ ZZ.CONTENT_RATING_MATURE) ∧
    (ZZ.determineContentRating genres = .everyone ↔
      ¬∃ k ∈ genres.map asciiLower, k ∈ ZZ.CONTENT_RATING_ADULT) := by
  unfold ZZ.determineContentRating
  dsimp only
  by_cases ha : ∃ k ∈ genres.map asciiLower, k ∈ ZZ.CONTENT_RATING_ADULT
  · rw [if_pos ha]
    refine ⟨⟨fun _ => ha, fun _ => rfl⟩, ?_, ?_⟩
    · exact ⟨fun h => absurd h (by decide), fun h => absurd ha h.1⟩
    · exact ⟨fun h => absurd h (by decide), fun h => absurd ha h⟩
  · rw [if_neg ha]
    refine ⟨⟨fun h => absurd h (by decide), fun h => absurd h ha⟩, ?_, ⟨fun _ => ha, fun _ => rfl⟩⟩
    constructor
    · intro h
      exact absurd h (by decide)
    · rintro ⟨_, k, _, hk⟩
      simp [ZZ.CONTENT_RATING_MATURE] at hk

/-- C1: on both sites the content rating of `parseMangaDetails` is
characterized exactly by membership of the extracted genre keywords in
the fixed keyword tables — ADULT iff some keyword is in the adult set,
MATURE iff none is adult but some is in the mature set (for Zzizz the
mature set is empty, so its parser never returns MATURE, which makes
that case vacuously exact), EVERYONE otherwise — and the rating is a
function of the extracted genre keywords alone, independent of every
other document field. -/
theorem claim_C1 :
    (∀ (doc : GA.MangaDoc) (mangaId domain : Str),
      ((GA.parseMangaDetails doc mangaId domain).contentRating = .adult ↔
        ∃ k ∈ GA.genreKeywordsOf doc, k ∈ GA.adultKeywords) ∧
      ((GA.parseMangaDetails doc mangaId domain).contentRating = .mature ↔
        (¬∃ k ∈ GA.genreKeywordsOf doc, k ∈ GA.adultKeywords) ∧
        ∃ k ∈ GA.genreKeywordsOf doc, k ∈ GA.matureKeywords) ∧
      ((GA.parseMangaDetails doc mangaId domain).contentRating = .everyone ↔
        (¬∃ k ∈ GA.genreKeywordsOf doc, k ∈ GA.adultKeywords) ∧
        ¬∃ k ∈ GA.genreKeywordsOf doc, k ∈ GA.matureKeywords)) ∧
    (∀ (doc : ZZ.MangaDoc) (mangaId domain : Str),
      ((ZZ.parseMangaDetails doc mangaId domain).contentRating = .adult ↔
        ∃ k ∈ (ZZ.genreKeywordsOf doc).map asciiLower, k ∈ ZZ.CONTENT_RATING_ADULT) ∧
      ((ZZ.parseMangaDetails doc mangaId domain).contentRating = .mature ↔
        (¬∃ k ∈ (ZZ.genreKeywordsOf doc).map asciiLower, k ∈ ZZ.CONTENT_RATING_ADULT) ∧
        ∃ k ∈ (ZZ.genreKeywordsOf doc).map asciiLower, k ∈ ZZ.CONTENT_RATING_MATURE) ∧
      ((ZZ.parseMangaDetails doc mangaId domain).contentRating = .everyone ↔
        ¬∃ k ∈ (ZZ.genreKeywordsOf doc).map asciiLower, k ∈ ZZ.CONTENT_RATING_ADULT)) ∧
    (∀ (d d' : GA.MangaDoc) (i i' dm dm' : Str),
      GA.genreKeywordsOf d = GA.genreKeywordsOf d' →
      (GA.parseMangaDetails d i dm).contentRating =
        (GA.parseMangaDetails d' i' dm').contentRating) ∧
    (∀ (d d' : ZZ.MangaDoc) (i i' dm dm' : Str),
      ZZ.genreKeywordsOf d = ZZ.genreKeywordsOf d' →
      (ZZ.parseMangaDetails d i dm).contentRating =
        (ZZ.parseMangaDetails d' i' dm').contentRating) := by
  refine ⟨fun doc mangaId domain => ?_, fun doc mangaId domain => ?_,
    fun d d' i i' dm dm' h => ?_, fun d d' i i' dm dm' h => ?_⟩
  · exact GA_contentRating_cases (GA.genreKeywordsOf doc)
  · exact ZZ_contentRating_cases (ZZ.genreKeywordsOf doc)
  · show GA.contentRatingOf (GA.genreKeywordsOf d) =
      GA.contentRatingOf (GA.genreKeywordsOf d')
    rw [h]
  · show ZZ.determineContentRating (ZZ.genreKeywordsOf d) =
      ZZ.determineContentRating (ZZ.genreKeywordsOf d')
    rw [h]

/-- C1 witness: a GalaxyAction document whose only genre is `Ecchi` is
rated MATURE, a Zzizz document with genre `Harém` is rated ADULT, and a
plain-genre document is rated EVERYONE. -/
theorem claim_C1_witness :
    (GA.parseMangaDetails ⟨[], [], [], [], [], [],
        [⟨"Ecchi".toList, "/genres/ecchi/".toList⟩]⟩ ("x".toList) GA.DOMAIN).contentRating
      = .mature ∧
    (ZZ.parseMangaDetails ⟨[], [], [], [], [], [], ["Harém".toList]⟩
        ("x".toList) ZZ.DOMAIN).contentRating = .adult ∧
    (ZZ.parseMangaDetails ⟨[], [], [], [], [], [], ["Action".toList]⟩
        ("x".toList) ZZ.DOMAIN).contentRating = .everyone := by
  refine ⟨?_, ?_, ?_⟩
  · exact ((claim_C1.1 _ ("x".toList) GA.DOMAIN).2.1).mpr (by decide)
  · exact ((claim_C1.2.1 _ ("x".toList) ZZ.DOMAIN).1).mpr (by decide)
  · exact ((claim_C1.2.1 _ ("x".toList) ZZ.DOMAIN).2.2).mpr (by decide)

/-- C4 counterexample: the claim says both sites map the Completed
bucket to `"Completed"`, but the Zzizz normalizer consults only the
Ongoing bucket: on the status text `completed` (a member of the
Completed bucket) it returns the text unchanged, not `"Completed"` (and
not title-cased either). -/
theorem claim_C4_counterexample :
    "completed".toList ∈ ZZ.STATUS_COMPLETED ∧
    ZZ.normalizeStatus ("completed".toList) = "completed".toList ∧
    ZZ.normalizeStatus ("completed".toList) ≠ "Completed".toList := by
  decide

/-- C4 (amended): GalaxyAction normalizes the Completed/Hiatus/Cancelled
buckets, defaults empty text to `Ongoing`, and title-cases (first
character upper-cased) any other non-empty text — including
Ongoing-bucket texts such as `publishing`, which only get title-cased;
the Zzizz normalizer maps exactly the Ongoing bucket (`in release`,
`ongoing`, `publishing`, case-insensitively) to `"Ongoing"`, defaults
empty text to `"Ongoing"`, and passes every other text through
*unchanged* (no title-casing, and the Completed/Hiatus/Cancelled buckets
of its constants are unused).  Both `parseMangaDetails` status fields
are computed by these normalizers on the trimmed status text. -/
theorem claim_C4 :
    (∀ t : Str, t ≠ [] → asciiLower t ∈ GA.completedBucket →
      GA.statusOf t = "Completed".toList) ∧
    (∀ t : Str, t ≠ [] → asciiLower t ∈ GA.hiatusBucket →
      GA.statusOf t = "Hiatus".toList) ∧
    (∀ t : Str, t ≠ [] → asciiLower t ∈ GA.cancelledBucket →
      GA.statusOf t = "Cancelled".toList) ∧
    GA.statusOf [] = "Ongoing".toList ∧
    (∀ t : Str, t ≠ [] → asciiLower t ∉ GA.completedBucket →
      asciiLower t ∉ GA.hiatusBucket → asciiLower t ∉ GA.cancelledBucket →
      GA.statusOf t = titleCase t) ∧
    (∀ t : Str, asciiLower t ∈ ZZ.STATUS_ONGOING →
      ZZ.normalizeStatus t = "Ongoing".toList) ∧
    ZZ.normalizeStatus [] = "Ongoing".toList ∧
    (∀ t : Str, t ≠ [] → asciiLower t ∉ ZZ.STATUS_ONGOING →
      ZZ.normalizeStatus t = t) ∧
    (∀ (doc : GA.MangaDoc) (i dm : Str),
      (GA.parseMangaDetails doc i dm).status = GA.statusOf (jsTrim doc.statusRaw)) ∧
    (∀ (doc : ZZ.MangaDoc) (i dm : Str),
      (ZZ.parseMangaDetails doc i dm).status = ZZ.normalizeStatus (jsTrim doc.statusRaw)) := by
  refine ⟨?_, ?_, ?_, rfl, ?_, ?_, rfl, ?_, fun _ _ _ => rfl, fun _ _ _ => rfl⟩
  · intro t hne hmem
    unfold GA.statusOf
    rw [if_neg hne]
    dsimp only
    rw [if_pos hmem]
  · intro t hne hmem
    unfold GA.statusOf
    rw [if_neg hne]
    dsimp only
    have hnc : asciiLower t ∉ GA.completedBucket := by
      intro hc
      revert hmem hc
      unfold GA.hiatusBucket GA.completedBucket
      intro hmem hc
      rcases List.mem_cons.mp hc with h | h <;> rcases List.mem_cons.mp hmem with h' | h' <;>
        simp_all
    rw [if_neg hnc, if_pos hmem]
  · intro t hne hmem
    unfold GA.statusOf
    rw [if_neg hne]
    dsimp only
    have hnc : asciiLower t ∉ GA.completedBucket := by
      intro hc
      revert hmem hc
      unfold GA.cancelledBucket GA.completedBucket
      intro hmem hc
      rcases List.mem_cons.mp hc with h | h <;> rcases List.mem_cons.mp hmem with h' | h' <;>
        simp_all
    have hnh : asciiLower t ∉ GA.hiatusBucket := by
      intro hc
      revert hmem hc
      unfold GA.cancelledBucket GA.hiatusBucket
      intro hmem hc
      rcases List.mem_cons.mp hc with h | h <;> rcases List.mem_cons.mp hmem with h' | h' <;>
        simp_all
    rw [if_neg hnc, if_neg hnh, if_pos hmem]
  · intro t hne h1 h2 h3
    unfold GA.statusOf
    rw [if_neg hne]
    dsimp only
    rw [if_neg h1, if_neg h2, if_neg h3]
  · intro t hmem
    by_cases hne : t = []
    · subst hne; rfl
    · unfold ZZ.normalizeStatus
      rw [if_neg hne, if_pos hmem]
  · intro t hne hmem
    unfold ZZ.normalizeStatus
    rw [if_neg hne, if_neg hmem]

/-- C4 witness: `FINISHED` normalizes to `Completed` on GalaxyAction,
`In Release` normalizes to `Ongoing` on Zzizz, and the Ongoing-bucket
text `publishing` is merely title-cased (`Publishing`) by GalaxyAction. -/
theorem claim_C4_witness :
    GA.statusOf ("FINISHED".toList) = "Completed".toList ∧
    ZZ.normalizeStatus ("In Release".toList) = "Ongoing".toList ∧
    GA.statusOf ("publishing".toList) = titleCase ("publishing".toList) :=
  ⟨claim_C4.1 _ (by decide) (by decide),
   claim_C4.2.2.2.2.2.1 _ (by decide),
   claim_C4.2.2.2.2.1 _ (by decide) (by decide) (by decide) (by decide)⟩

/-! ### The page-image validator (claim C8) -/

/-- C8 counterexample: `" "` is a non-empty string containing neither
`readerarea.svg` nor `data:image/svg`, so the claim says the validator
accepts it; but the code also requires `url.trim().length > 0`, and a
blank string is rejected. -/
theorem claim_C8_counterexample :
    " ".toList ≠ [] ∧
    containsSub ("readerarea.svg".toList) (" ".toList) = false ∧
    containsSub ("data:image/svg".toList) (" ".toList) = false ∧
    GA.isValidImageUrl (" ".toList) = false := by
  decide

/-- C8 (amended): `isValidImageUrl` returns `true` exactly on the strings
that contain a non-whitespace character (i.e. do not trim to empty —
this also excludes the empty string) and contain neither
`readerarea.svg` nor the `data:image/svg` data-URI marker. -/
theorem claim_C8 (url : Str) :
    GA.isValidImageUrl url = true ↔
    (jsTrim url ≠ [] ∧ containsSub ("readerarea.svg".toList) url = false ∧
     containsSub ("data:image/svg".toList) url = false) := by
  unfold GA.isValidImageUrl
  constructor
  · intro h
    simp only [Bool.and_eq_true, Bool.not_eq_true'] at h
    obtain ⟨⟨⟨_, h2⟩, h3⟩, h4⟩ := h
    exact ⟨by simpa [List.isEmpty_iff] using h2, h3, h4⟩
  · rintro ⟨h1, h2, h3⟩
    have hu : url ≠ [] := fun hc => h1 (by rw [hc]; rfl)
    simp only [Bool.and_eq_true, Bool.not_eq_true']
    exact ⟨⟨⟨by simpa [List.isEmpty_iff] using hu,
      by simpa [List.isEmpty_iff] using h1⟩, h2⟩, h3⟩

/-- C8 witness: the characterization applied at a real image URL and at
the SVG placeholder. -/
theorem claim_C8_witness :
    GA.isValidImageUrl ("https://cdn.x/p1.jpg".toList) = true ∧
    GA.isValidImageUrl ("https://cdn.x/readerarea.svg".toList) = false :=
  ⟨(claim_C8 ("https://cdn.x/p1.jpg".toList)).mpr (by decide), by decide⟩

/-! ### The weekly-manga discover section (claim C10) -/

theorem GA_weeklyLoop_eq : ∀ (nodes : List GA.WeeklyNode) (k : Nat), k ≤ 12 →
    GA.weeklyLoop k nodes = (nodes.take (12 - k)).filterMap GA.mkWeeklyItem := by
  intro nodes
  induction nodes with
  | nil => intro k _; simp [GA.weeklyLoop]
  | cons n rest ih =>
    intro k hk
    unfold GA.weeklyLoop
    by_cases h12 : 12 ≤ k
    · rw [if_pos h12]
      have h0 : 12 - k = 0 := by omega
      simp [h0]
    · rw [if_neg h12]
      have hk1 : k + 1 ≤ 12 := by omega
      have htake : 12 - k = (12 - (k + 1)) + 1 := by omega
      rw [htake, List.take_succ_cons, List.filterMap_cons]
      rcases hmk : GA.mkWeeklyItem n with _ | it <;> simp only [hmk] <;>
        rw [ih (k + 1) hk1]

/-- C10: the weekly-manga section loop stops at document index 12 —
its output is exactly the per-entry extraction (`filterMap`, document
order, invalid entries skipped) of the first 12 entry nodes, and in
particular never holds more than 12 items. -/
theorem claim_C10 (nodes : List GA.WeeklyNode) :
    GA.getWeeklyItems nodes = (nodes.take 12).filterMap GA.mkWeeklyItem ∧
    (GA.getWeeklyItems nodes).length ≤ 12 := by
  have h : GA.getWeeklyItems nodes = (nodes.take 12).filterMap GA.mkWeeklyItem := by
    have := GA_weeklyLoop_eq nodes 0 (by omega)
    simpa [GA.getWeeklyItems] using this
  refine ⟨h, ?_⟩
  rw [h]
  calc ((nodes.take 12).filterMap GA.mkWeeklyItem).length
      ≤ (nodes.take 12).length := List.length_filterMap_le _ _
    _ ≤ 12 := by
        rw [List.length_take]
        exact min_le_left _ _

/-! ### Chapter lists (claims C2, C3, C5) -/

theorem head_drop_takeWhile (q : Char → Bool) :
    ∀ (l : Str) {c : Char} {rest : Str},
      l.drop (l.takeWhile q).length = c :: rest → q c = false := by
  intro l
  induction l with
  | nil => intro c rest h; simp at h
  | cons a as ih =>
    intro c rest h
    by_cases hq : q a
    · rw [List.takeWhile_cons, if_pos hq] at h
      simp only [List.length_cons, List.drop_succ_cons] at h
      exact ih h
    · rw [List.takeWhile_cons, if_neg hq] at h
      simp only [List.length_nil, List.drop_zero] at h
      cases h
      simpa using hq

theorem GA_goodHref_spec {href : Str} (h : GA.goodHref href = true) :
    href ≠ [] ∧ leads ['#'] href = false := by
  unfold GA.goodHref at h
  simp only [Bool.and_eq_true, Bool.not_eq_true'] at h
  exact ⟨by simpa [List.isEmpty_iff] using h.1.1.1, h.1.1.2⟩

theorem GA_httpPathMatch_some {h p : Str} (hm : GA.httpPathMatch h = some p) :
    p ≠ [] ∧ ∀ c rest, p = c :: rest → c = '/' := by
  unfold GA.httpPathMatch at hm
  rcases hs : (if leads ("https://".toList) h then some (h.drop 8)
      else if leads ("http://".toList) h then some (h.drop 7) else none) with _ | r
  · rw [hs] at hm; simp at hm
  · rw [hs] at hm
    dsimp only at hm
    split at hm
    · simp at hm
    · rcases hd : r.drop (r.takeWhile (fun c => c != '/')).length with _ | ⟨c, rest⟩
      · rw [hd] at hm; simp at hm
      · rw [hd] at hm
        have hp : p = c :: rest := by simpa using hm.symm
        have hc : (c != '/') = false := head_drop_takeWhile (fun c => c != '/') r hd
        have hc' : c = '/' := by simpa [bne_iff_ne] using hc
        subst hp
        refine ⟨by simp, ?_⟩
        intro c' rest' hh
        cases hh
        exact hc'

theorem GA_normalizeHref_ok {href : Str} (h : GA.goodHref href = true) :
    GA.normalizeHref href ≠ [] ∧ GA.normalizeHref href ≠ ['#'] := by
  obtain ⟨hne, hlead⟩ := GA_goodHref_spec h
  unfold GA.normalizeHref
  split
  · rcases hm : GA.httpPathMatch href with _ | p
    · refine ⟨hne, ?_⟩
      intro hc
      rw [show href = ['#'] from hc] at hlead
      simp [leads] at hlead
    · obtain ⟨hpne, hphead⟩ := GA_httpPathMatch_some hm
      refine ⟨hpne, ?_⟩
      intro hc
      have := hphead '#' [] hc
      exact absurd this (by decide)
  · refine ⟨hne, ?_⟩
    intro hc
    rw [hc] at hlead
    simp [leads] at hlead

theorem GA_chapterLoop_ids (total : Nat) (lang : Str) (now : JsDate) :
    ∀ (entries : List GA.ChapterNode) (i : Nat),
      (GA.chapterLoop total lang now i entries).map (·.chapterId) =
        (entries.filter (fun e => GA.goodHref e.href)).map
          (fun e => GA.normalizeHref e.href) := by
  intro entries
  induction entries with
  | nil => intro i; simp [GA.chapterLoop]
  | cons e rest ih =>
    intro i
    unfold GA.chapterLoop
    by_cases hg : GA.goodHref e.href = true
    · rw [if_pos hg]
      obtain ⟨h1, h2⟩ := GA_normalizeHref_ok hg
      dsimp only
      rw [if_neg (by push_neg; exact ⟨h1, h2⟩)]
      rw [List.filter_cons_of_pos (by simpa using hg)]
      simp only [List.map_cons]
      rw [ih (i + 1)]
      rfl
    · rw [if_neg hg]
      rw [List.filter_cons_of_neg (by simpa using hg)]
      exact ih (i + 1)

theorem GA_chapterLoop_all_good (total : Nat) (lang : Str) (now : JsDate) :
    ∀ (entries : List GA.ChapterNode) (i : Nat),
      (∀ e ∈ entries, GA.goodHref e.href = true) →
      (GA.chapterLoop total lang now i entries).map (·.sortingIndex) =
        (List.range entries.length).map
          (fun j : Nat => (total : Int) - ((i : Int) + (j : Int))) := by
  intro entries
  induction entries with
  | nil => intro i _; simp [GA.chapterLoop]
  | cons e rest ih =>
    intro i hall
    have hg : GA.goodHref e.href = true := hall e (List.mem_cons_self e rest)
    unfold GA.chapterLoop
    rw [if_pos hg]
    obtain ⟨h1, h2⟩ := GA_normalizeHref_ok hg
    dsimp only
    rw [if_neg (by push_neg; exact ⟨h1, h2⟩)]
    rw [List.length_cons, List.range_succ_eq_map]
    simp only [List.map_cons, List.map_map]
    have htail : (GA.chapterLoop total lang now (i + 1) rest).map (·.sortingIndex)
        = List.map ((fun j : Nat => (total : Int) - ((i : Int) + (j : Int))) ∘ Nat.succ)
            (List.range rest.length) := by
      rw [ih (i + 1) (fun x hx => hall x (List.mem_cons_of_mem e hx))]
      apply List.map_congr_left
      intro j _
      simp only [Function.comp]
      push_cast
      ring
    rw [htail]
    congr 1

theorem GA_chapterLoop_le (total : Nat) (lang : Str) (now : JsDate) :
    ∀ (entries : List GA.ChapterNode) (i : Nat),
      ∀ c ∈ GA.chapterLoop total lang now i entries,
        c.sortingIndex ≤ (total : Int) - ((i : Int) + 1) ∨
        c.sortingIndex = (total : Int) - i := by
  intro entries
  induction entries with
  | nil => intro i c hc; simp [GA.chapterLoop] at hc
  | cons e rest ih =>
    intro i c hc
    unfold GA.chapterLoop at hc
    by_cases hg : GA.goodHref e.href = true
    · rw [if_pos hg] at hc
      obtain ⟨h1, h2⟩ := GA_normalizeHref_ok hg
      dsimp only at hc
      rw [if_neg (by push_neg; exact ⟨h1, h2⟩)] at hc
      rcases List.mem_cons.mp hc with h | h
      · right; rw [h]; rfl
      · left
        rcases ih (i + 1) c h with h' | h'
        · calc c.sortingIndex ≤ (total : Int) - ((i : Int) + 1 + 1) := by push_cast at h' ⊢; omega
            _ ≤ (total : Int) - ((i : Int) + 1) := by omega
        · rw [h']
          push_cast
          omega
    · rw [if_neg hg] at hc
      rcases ih (i + 1) c hc with h' | h'
      · left; push_cast at h' ⊢; omega
      · left; rw [h']; push_cast; omega

theorem GA_chapterLoop_chain (total : Nat) (lang : Str) (now : JsDate) :
    ∀ (entries : List GA.ChapterNode) (i : Nat),
      List.Chain' (· > ·) ((GA.chapterLoop total lang now i entries).map (·.sortingIndex)) := by
  intro entries
  induction entries with
  | nil => intro i; simp [GA.chapterLoop]
  | cons e rest ih =>
    intro i
    unfold GA.chapterLoop
    by_cases hg : GA.goodHref e.href = true
    · rw [if_pos hg]
      obtain ⟨h1, h2⟩ := GA_normalizeHref_ok hg
      dsimp only
      rw [if_neg (by push_neg; exact ⟨h1, h2⟩)]
      simp only [List.map_cons]
      rw [List.chain'_cons']
      constructor
      · intro b hb
        have hbmem : b ∈ (GA.chapterLoop total lang now (i + 1) rest).map (·.sortingIndex) :=
          List.mem_of_mem_head? hb
        obtain ⟨c, hc, hcb⟩ := List.mem_map.mp hbmem
        rcases GA_chapterLoop_le total lang now rest (i + 1) c hc with h' | h'
        · show (GA.mkChapter total lang now i e).sortingIndex > b
          rw [← hcb]
          show ((total : Int) - i) > c.sortingIndex
          push_cast at h' ⊢
          omega
        · show (GA.mkChapter total lang now i e).sortingIndex > b
          rw [← hcb, h']
          show ((total : Int) - i) > (total : Int) - ((i : Nat) + 1 : Nat)
          push_cast
          omega
      · exact ih (i + 1)
    · rw [if_neg hg]
      exact ih (i + 1)

theorem ZZ_ensureTrailingSlash_ok (l : Str) :
    ZZ.ensureTrailingSlash l ≠ [] ∧ ZZ.ensureTrailingSlash l ≠ ['#'] := by
  unfold ZZ.ensureTrailingSlash
  split
  · rename_i hg
    constructor
    · intro hc
      rw [hc] at hg
      simp at hg
    · intro hc
      rw [hc] at hg
      simp at hg
  · constructor
    · simp
    · intro hc
      have h1 : (l ++ ['/']).getLast? = some '/' :=
        List.getLast?_append_of_ne_nil _ (by simp)
      rw [hc] at h1
      simp at h1

theorem ZZ_collect_length (lang : Str) (now : JsDate) :
    ∀ (entries : List ZZ.ChapterNode) (cnt : Nat),
      (ZZ.collect lang now entries cnt).length =
        (entries.filter (fun e => !e.href.isEmpty && !leads ['#'] e.href)).length := by
  intro entries
  induction entries with
  | nil => intro cnt; simp [ZZ.collect]
  | cons e rest ih =>
    intro cnt
    unfold ZZ.collect
    by_cases hg : (!e.href.isEmpty && !leads ['#'] e.href) = true
    · rw [if_pos hg]
      obtain ⟨h1, h2⟩ := ZZ_ensureTrailingSlash_ok (ZZ.normalizeHref e.href)
      dsimp only
      rw [if_neg (by push_neg; exact ⟨h1, h2⟩)]
      rw [List.filter_cons, if_pos hg]
      simp only [List.length_cons]
      rw [ih (cnt + 1)]
    · rw [if_neg hg]
      rw [List.filter_cons, if_neg hg]
      exact ih cnt

theorem ZZ_sortInsert_length (a : ZZ.Chapter) :
    ∀ l : List ZZ.Chapter, (ZZ.sortInsert a l).length = l.length + 1 := by
  intro l
  induction l with
  | nil => rfl
  | cons b t ih =>
    unfold ZZ.sortInsert
    split
    · simp
    · simp only [List.length_cons, ih]

theorem ZZ_sort_length :
    ∀ l : List ZZ.Chapter, (ZZ.sortByNumDesc l).length = l.length := by
  intro l
  induction l with
  | nil => rfl
  | cons a t ih =>
    unfold ZZ.sortByNumDesc
    rw [ZZ_sortInsert_length, ih, List.length_cons]

theorem ZZ_reassign_length (n : Nat) :
    ∀ (l : List ZZ.Chapter) (i : Nat), (ZZ.reassign n i l).length = l.length := by
  intro l
  induction l with
  | nil => intro i; rfl
  | cons c t ih =>
    intro i
    unfold ZZ.reassign
    simp only [List.length_cons, ih]

theorem ZZ_reassign_map (n : Nat) :
    ∀ (l : List ZZ.Chapter) (i : Nat),
      (ZZ.reassign n i l).map (·.sortingIndex) =
        (List.range l.length).map (fun j : Nat => (n : Int) - ((i : Int) + (j : Int))) := by
  intro l
  induction l with
  | nil => intro i; rfl
  | cons c t ih =>
    intro i
    unfold ZZ.reassign
    rw [List.length_cons, List.range_succ_eq_map]
    simp only [List.map_cons, List.map_map]
    have htail : (ZZ.reassign n (i + 1) t).map (·.sortingIndex)
        = List.map ((fun j : Nat => (n : Int) - ((i : Int) + (j : Int))) ∘ Nat.succ)
            (List.range t.length) := by
      rw [ih (i + 1)]
      apply List.map_congr_left
      intro j _
      simp only [Function.comp]
      push_cast
      ring
    rw [htail]
    congr 1

/-- C2 counterexample: GalaxyAction assigns `sortingIndex = total - i`
*before* the href check, so a dropped entry leaves a gap.  With three
`li[data-num]` nodes whose middle href is `"#"`, the output has two
chapters with sorting indices `[3, 1]` — not the contiguous range
`[2, 1]` the claim requires. -/
theorem claim_C2_counterexample :
    (GA.parseChapterList
        [⟨"/a".toList, [], []⟩, ⟨"#".toList, [], []⟩, ⟨"/b".toList, [], []⟩]
        ("en".toList) ⟨0⟩).length = 2 ∧
    (GA.parseChapterList
        [⟨"/a".toList, [], []⟩, ⟨"#".toList, [], []⟩, ⟨"/b".toList, [], []⟩]
        ("en".toList) ⟨0⟩).map (·.sortingIndex) = [3, 1] ∧
    ([3, 1] : List Int) ≠ [2, 1] := by
  decide

/-- C2 (amended): the Zzizz chapter list always carries the contiguous
sorting indices `count .. 1` (the post-sort `forEach` reassigns them),
and the GalaxyAction list carries `count .. 1` whenever no entry is
dropped; in general GalaxyAction indices are strictly decreasing (hence
unique) but gain gaps at dropped entries. -/
theorem claim_C2 :
    (∀ (entries : List ZZ.ChapterNode) (lang : Str) (now : JsDate),
      (ZZ.parseChapterList entries lang now).map (·.sortingIndex) =
        (List.range (ZZ.parseChapterList entries lang now).length).map
          (fun j : Nat => ((ZZ.parseChapterList entries lang now).length : Int) - (j : Int))) ∧
    (∀ (entries : List GA.ChapterNode) (lang : Str) (now : JsDate),
      (∀ e ∈ entries, GA.goodHref e.href = true) →
      (GA.parseChapterList entries lang now).map (·.sortingIndex) =
        (List.range entries.length).map
          (fun j : Nat => (entries.length : Int) - (j : Int))) ∧
    (∀ (entries : List GA.ChapterNode) (lang : Str) (now : JsDate),
      List.Chain' (· > ·) ((GA.parseChapterList entries lang now).map (·.sortingIndex))) := by
  refine ⟨?_, ?_, ?_⟩
  · intro entries lang now
    have hlen : (ZZ.parseChapterList entries lang now).length =
        (ZZ.sortByNumDesc (ZZ.collect lang now entries 0)).length := by
      show (ZZ.reassign _ 0 _).length = _
      rw [ZZ_reassign_length]
    rw [hlen]
    show (ZZ.reassign _ 0 _).map (·.sortingIndex) = _
    rw [ZZ_reassign_map]
    apply List.map_congr_left
    intro j _
    push_cast
    ring
  · intro entries lang now hall
    unfold GA.parseChapterList
    rw [GA_chapterLoop_all_good entries.length lang now entries 0 hall]
    apply List.map_congr_left
    intro j _
    push_cast
    ring
  · intro entries lang now
    exact GA_chapterLoop_chain entries.length lang now entries 0

/-- C2 witness: three all-good GalaxyAction entries get indices
`[3, 2, 1]`, and a Zzizz listing with chapter numbers `[1, 5, 3]` in
document order is re-sorted and reindexed to `[3, 2, 1]`. -/
theorem claim_C2_witness :
    (GA.parseChapterList
        [⟨"/ch-3".toList, [], []⟩, ⟨"/ch-2".toList, [], []⟩, ⟨"/ch-1".toList, [], []⟩]
        ("en".toList) ⟨0⟩).map (·.sortingIndex) = [3, 2, 1] ∧
    (ZZ.parseChapterList
        [⟨"/reader/manga/x/1/".toList, "Chapter 1".toList, []⟩,
         ⟨"/reader/manga/x/5/".toList, "Chapter 5".toList, []⟩,
         ⟨"/reader/manga/x/3/".toList, "Chapter 3".toList, []⟩]
        ("en".toList) ⟨0⟩).map (·.sortingIndex) = [3, 2, 1] := by
  constructor
  · have h := claim_C2.2.1
      [⟨"/ch-3".toList, [], []⟩, ⟨"/ch-2".toList, [], []⟩, ⟨"/ch-1".toList, [], []⟩]
      ("en".toList) ⟨0⟩ (by decide)
    rw [h]
    decide
  · have h := claim_C2.1
      [⟨"/reader/manga/x/1/".toList, "Chapter 1".toList, []⟩,
       ⟨"/reader/manga/x/5/".toList, "Chapter 5".toList, []⟩,
       ⟨"/reader/manga/x/3/".toList, "Chapter 3".toList, []⟩]
      ("en".toList) ⟨0⟩
    rw [h]
    decide

/-- C3 counterexample: the Zzizz chapter parser checks only for empty
and `#`-leading hrefs — it has no `\x7b\x7b`/`\x7d\x7d` placeholder
check.  An entry whose href contains a literal `\x7b\x7b` is kept (output
length 1), while the claim requires it to be excluded from both parsers'
output. -/
theorem claim_C3_counterexample :
    containsSub ("\x7b\x7b".toList) ("/reader/manga/x/\x7b\x7bid\x7d\x7d/".toList) = true ∧
    (ZZ.parseChapterList [⟨"/reader/manga/x/\x7b\x7bid\x7d\x7d/".toList, [], []⟩]
        ("en".toList) ⟨0⟩).length = 1 := by
  decide

/-- C3 (amended): GalaxyAction excludes exactly the entries whose href is
empty, *starts with* `#` (not only the bare `"#"`), or contains `\x7b\x7b`
or `\x7d\x7d` — its output is the document-order image of the surviving
entries; Zzizz excludes exactly the entries whose href is empty or starts
with `#` (it has no placeholder check).  A bad entry is dropped without
affecting its siblings (both parsers are total functions), and a 5-entry
listing with exactly one bad entry yields 4 chapters on either site. -/
theorem claim_C3 :
    (∀ (entries : List GA.ChapterNode) (lang : Str) (now : JsDate),
      (GA.parseChapterList entries lang now).map (·.chapterId) =
        (entries.filter (fun e => GA.goodHref e.href)).map
          (fun e => GA.normalizeHref e.href)) ∧
    (∀ (entries : List GA.ChapterNode) (lang : Str) (now : JsDate),
      (GA.parseChapterList entries lang now).length =
        (entries.filter (fun e => GA.goodHref e.href)).length) ∧
    (∀ (entries : List ZZ.ChapterNode) (lang : Str) (now : JsDate),
      (ZZ.parseChapterList entries lang now).length =
        (entries.filter (fun e => !e.href.isEmpty && !leads ['#'] e.href)).length) ∧
    (GA.parseChapterList
        [⟨"/c5".toList, [], []⟩, ⟨"/c4".toList, [], []⟩, ⟨"\x7b\x7burl\x7d\x7d".toList, [], []⟩,
         ⟨"/c2".toList, [], []⟩, ⟨"/c1".toList, [], []⟩] ("en".toList) ⟨0⟩).length = 4 ∧
    (ZZ.parseChapterList
        [⟨"/r/5/".toList, [], []⟩, ⟨"/r/4/".toList, [], []⟩, ⟨"#".toList, [], []⟩,
         ⟨"/r/2/".toList, [], []⟩, ⟨"/r/1/".toList, [], []⟩] ("en".toList) ⟨0⟩).length = 4 := by
  refine ⟨?_, ?_, ?_, by decide, by decide⟩
  · intro entries lang now
    exact GA_chapterLoop_ids entries.length lang now entries 0
  · intro entries lang now
    have h := GA_chapterLoop_ids entries.length lang now entries 0
    have := congrArg List.length h
    simpa [List.length_map] using this
  · intro entries lang now
    show (ZZ.reassign _ 0 _).length = _
    rw [ZZ_reassign_length, ZZ_sort_length, ZZ_collect_length]

/-! ### Clock dependence of the parse operations (claim C5) -/

theorem GA_parseDate_clock (t t' : JsDate) (s : Str) :
    GA.parseDate t s = GA.parseDate t' s ∨
    (GA.parseDate t s = t ∧ GA.parseDate t' s = t') := by
  unfold GA.parseDate
  by_cases h1 : s = []
  · right
    rw [if_pos h1, if_pos h1]
    exact ⟨rfl, rfl⟩
  · rw [if_neg h1, if_neg h1]
    dsimp only
    by_cases h2 : (containsSub ("ago".toList) (jsTrim s) ||
        containsSub ("just now".toList) (jsTrim s)) = true
    · right
      rw [if_pos h2, if_pos h2]
      exact ⟨rfl, rfl⟩
    · rw [if_neg h2, if_neg h2]
      cases hd : jsDateParse (jsTrim s)
      · right; exact ⟨rfl, rfl⟩
      · left; rfl

theorem GA_chapterLoop_erase (total : Nat) (lang : Str) (t t' : JsDate) :
    ∀ (entries : List GA.ChapterNode) (i : Nat),
      (GA.chapterLoop total lang t i entries).map GA.eraseDate =
        (GA.chapterLoop total lang t' i entries).map GA.eraseDate := by
  intro entries
  induction entries with
  | nil => intro i; rfl
  | cons e rest ih =>
    intro i
    unfold GA.chapterLoop
    by_cases hg : GA.goodHref e.href = true
    · rw [if_pos hg, if_pos hg]
      obtain ⟨h1, h2⟩ := GA_normalizeHref_ok hg
      dsimp only
      rw [if_neg (by push_neg; exact ⟨h1, h2⟩), if_neg (by push_neg; exact ⟨h1, h2⟩)]
      simp only [List.map_cons]
      rw [ih (i + 1)]
      congr 1
    · rw [if_neg hg, if_neg hg]
      exact ih (i + 1)

theorem ZZ_mkChapter_erase (lang : Str) (t t' : JsDate) (cnt : Nat)
    (e : ZZ.ChapterNode) (cid : Str) :
    ZZ.eraseDate (ZZ.mkChapter lang t cnt e cid) =
      ZZ.eraseDate (ZZ.mkChapter lang t' cnt e cid) := by
  simp [ZZ.mkChapter, ZZ.eraseDate]

theorem ZZ_collect_erase (lang : Str) (t t' : JsDate) :
    ∀ (entries : List ZZ.ChapterNode) (cnt : Nat),
      (ZZ.collect lang t entries cnt).map ZZ.eraseDate =
        (ZZ.collect lang t' entries cnt).map ZZ.eraseDate := by
  intro entries
  induction entries with
  | nil => intro cnt; rfl
  | cons e rest ih =>
    intro cnt
    unfold ZZ.collect
    by_cases hg : (!e.href.isEmpty && !leads ['#'] e.href) = true
    · rw [if_pos hg, if_pos hg]
      obtain ⟨h1, h2⟩ := ZZ_ensureTrailingSlash_ok (ZZ.normalizeHref e.href)
      dsimp only
      rw [if_neg (by push_neg; exact ⟨h1, h2⟩), if_neg (by push_neg; exact ⟨h1, h2⟩)]
      simp only [List.map_cons]
      rw [ih (cnt + 1), ZZ_mkChapter_erase lang t t' cnt]
    · rw [if_neg hg, if_neg hg]
      exact ih cnt

theorem ZZ_sortInsert_map_erase (a : ZZ.Chapter) :
    ∀ l : List ZZ.Chapter,
      (ZZ.sortInsert a l).map ZZ.eraseDate =
        ZZ.sortInsert (ZZ.eraseDate a) (l.map ZZ.eraseDate) := by
  intro l
  induction l with
  | nil => rfl
  | cons b tl ih =>
    unfold ZZ.sortInsert
    by_cases hc : b.chapNum ≤ a.chapNum
    · rw [if_pos hc]
      simp only [List.map_cons]
      rw [if_pos (by simpa [ZZ.eraseDate] using hc)]
    · rw [if_neg hc]
      simp only [List.map_cons]
      rw [if_neg (by simpa [ZZ.eraseDate] using hc), ih]

theorem ZZ_sort_map_erase :
    ∀ l : List ZZ.Chapter,
      (ZZ.sortByNumDesc l).map ZZ.eraseDate = ZZ.sortByNumDesc (l.map ZZ.eraseDate) := by
  intro l
  induction l with
  | nil => rfl
  | cons a tl ih =>
    show (ZZ.sortInsert a (ZZ.sortByNumDesc tl)).map ZZ.eraseDate = _
    rw [ZZ_sortInsert_map_erase, ih]
    rfl

theorem ZZ_reassign_map_erase (n : Nat) :
    ∀ (l : List ZZ.Chapter) (i : Nat),
      (ZZ.reassign n i l).map ZZ.eraseDate = ZZ.reassign n i (l.map ZZ.eraseDate) := by
  intro l
  induction l with
  | nil => intro i; rfl
  | cons c tl ih =>
    intro i
    unfold ZZ.reassign
    simp only [List.map_cons]
    rw [ih (i + 1)]
    rfl

theorem ZZ_chapterList_erase (entries : List ZZ.ChapterNode) (lang : Str) (t t' : JsDate) :
    (ZZ.parseChapterList entries lang t).map ZZ.eraseDate =
      (ZZ.parseChapterList entries lang t').map ZZ.eraseDate := by
  unfold ZZ.parseChapterList
  dsimp only
  have hc := ZZ_collect_erase lang t t' entries 0
  have hs : (ZZ.sortByNumDesc (ZZ.collect lang t entries 0)).map ZZ.eraseDate =
      (ZZ.sortByNumDesc (ZZ.collect lang t' entries 0)).map ZZ.eraseDate := by
    rw [ZZ_sort_map_erase, ZZ_sort_map_erase, hc]
  have hlen : (ZZ.sortByNumDesc (ZZ.collect lang t entries 0)).length =
      (ZZ.sortByNumDesc (ZZ.collect lang t' entries 0)).length := by
    have := congrArg List.length hs
    simpa [List.length_map] using this
  rw [ZZ_reassign_map_erase, ZZ_reassign_map_erase, hs, hlen]

/-- C5 counterexample: parsing the same one-entry chapter listing (date
text `2 days ago`) at two different wall-clock instants yields different
outputs — the publish dates differ — so the operations are not
deterministic functions of the document alone. -/
theorem claim_C5_counterexample :
    GA.parseChapterList [⟨"/ch-1".toList, [], "2 days ago".toList⟩] ("en".toList) ⟨0⟩ ≠
    GA.parseChapterList [⟨"/ch-1".toList, [], "2 days ago".toList⟩] ("en".toList) ⟨1⟩ := by
  decide

/-- C5 (amended): each parse operation is a pure function of the
document, the context and the wall clock, and consults the clock only
through chapter publish dates: `parseDate` either ignores the clock or
returns exactly the clock value (absent/relative/unparseable dates), and
on both sites two runs of `parseChapterList` at different instants agree
on everything except the `publishDate` fields.  The remaining operations
(`parseMangaDetails`, `parseChapterDetails`, `parseSearchResults`,
`parseDiscoverSections`) take no clock parameter at all in this
embedding, mirroring the absence of any `Date` use in their source. -/
theorem claim_C5 :
    (∀ (t t' : JsDate) (s : Str),
      GA.parseDate t s = GA.parseDate t' s ∨
      (GA.parseDate t s = t ∧ GA.parseDate t' s = t')) ∧
    (∀ (entries : List GA.ChapterNode) (lang : Str) (t t' : JsDate),
      (GA.parseChapterList entries lang t).map GA.eraseDate =
        (GA.parseChapterList entries lang t').map GA.eraseDate) ∧
    (∀ (entries : List ZZ.ChapterNode) (lang : Str) (t t' : JsDate),
      (ZZ.parseChapterList entries lang t).map ZZ.eraseDate =
        (ZZ.parseChapterList entries lang t').map ZZ.eraseDate) :=
  ⟨GA_parseDate_clock,
   fun entries lang t t' => GA_chapterLoop_erase entries.length lang t t' entries 0,
   fun entries lang t t' => ZZ_chapterList_erase entries lang t t'⟩

/-! ### The inline-script image extractor (claim C9) -/

theorem leads_subset : ∀ {p l : Str}, leads p l = true → ∀ a ∈ p, a ∈ l := by
  intro p
  induction p with
  | nil => intro l _ a ha; simp at ha
  | cons x xs ih =>
    intro l h a ha
    cases l with
    | nil => simp [leads] at h
    | cons c cs =>
      obtain ⟨he, hl⟩ := leads_head_eq h
      rcases List.mem_cons.mp ha with h' | h'
      · rw [h', he]
        exact List.mem_cons_self c cs
      · exact List.mem_cons_of_mem c (ih hl a h')

theorem containsSub_subset {pat : Str} :
    ∀ {l : Str}, containsSub pat l = true → ∀ a ∈ pat, a ∈ l := by
  intro l
  induction l with
  | nil =>
    intro h a ha
    unfold containsSub at h
    have : pat = [] := by simpa [List.isEmpty_iff] using h
    rw [this] at ha
    simp at ha
  | cons c t ih =>
    intro h a ha
    unfold containsSub at h
    rcases Bool.or_eq_true_iff.mp h with h' | h'
    · exact leads_subset h' a ha
    · exact List.mem_cons_of_mem c (ih h' a ha)

theorem takeWhile_append_stop {p : Char → Bool} :
    ∀ {u : Str}, (∀ a ∈ u, p a = true) → ∀ {c : Char}, p c = false → ∀ (r : Str),
      (u ++ c :: r).takeWhile p = u := by
  intro u
  induction u with
  | nil =>
    intro _ c hc r
    simp [List.takeWhile_cons, hc]
  | cons x xs ih =>
    intro hu c hc r
    have hx : p x = true := hu x (List.mem_cons_self x xs)
    simp only [List.cons_append, List.takeWhile_cons, hx, if_true]
    rw [ih (fun a ha => hu a (List.mem_cons_of_mem x ha)) hc r]

theorem dropWhile_head_false {p : Char → Bool} :
    ∀ {l : Str} {c : Char} {t : Str}, l.dropWhile p = c :: t → p c = false := by
  intro l
  induction l with
  | nil => intro c t h; simp at h
  | cons x xs ih =>
    intro c t h
    rw [List.dropWhile_cons] at h
    split at h
    · exact ih h
    · cases h
      rename_i hx
      simpa using hx

theorem dropWhile_mem {p : Char → Bool} {l : Str} {a : Char}
    (h : a ∈ l.dropWhile p) : a ∈ l :=
  (List.dropWhile_sublist p).subset h

theorem takeWhile_append_of_stop {p : Char → Bool} :
    ∀ (x s : Str), x.dropWhile p ≠ [] → (x ++ s).takeWhile p = x.takeWhile p := by
  intro x
  induction x with
  | nil => intro s h; simp at h
  | cons c x' ih =>
    intro s h
    by_cases hc : p c = true
    · rw [List.dropWhile_cons, if_pos hc] at h
      simp only [List.cons_append, List.takeWhile_cons, hc, if_true]
      rw [ih s h]
    · have hc' : p c = false := by simpa using hc
      simp [List.takeWhile_cons, hc']

theorem drop_takeWhile_append {p : Char → Bool} (x s : Str) :
    (x ++ s).drop ((x.takeWhile p).length) = x.dropWhile p ++ s := by
  have hx : x.takeWhile p ++ x.dropWhile p = x := List.takeWhile_append_dropWhile p x
  calc (x ++ s).drop ((x.takeWhile p).length)
      = ((x.takeWhile p ++ x.dropWhile p) ++ s).drop ((x.takeWhile p).length) := by rw [hx]
    _ = (x.takeWhile p ++ (x.dropWhile p ++ s)).drop ((x.takeWhile p).length) := by
        rw [List.append_assoc]
    _ = x.dropWhile p ++ s := List.drop_left _ _

theorem replaceQuotes_append (a b : Str) :
    GA.replaceQuotes (a ++ b) = GA.replaceQuotes a ++ GA.replaceQuotes b :=
  List.map_append _ a b

theorem replaceQuotes_of_no_apost {l : Str} (h : apostChar ∉ l) :
    GA.replaceQuotes l = l := by
  unfold GA.replaceQuotes
  conv_rhs => rw [← List.map_id l]
  apply List.map_congr_left
  intro a ha
  have : a ≠ apostChar := fun hc => h (hc ▸ ha)
  simp [this]

theorem replaceQuotes_renderElem {u : Str} (h : apostChar ∉ u) (q : Bool) :
    GA.replaceQuotes (GA.renderElem u q) = GA.renderElem u false := by
  unfold GA.renderElem
  have hq : (if q then apostChar else quoteChar) :: u ++ [if q then apostChar else quoteChar]
      = ([if q then apostChar else quoteChar] ++ u) ++ [if q then apostChar else quoteChar] := by
    simp
  rw [hq, replaceQuotes_append, replaceQuotes_append, replaceQuotes_of_no_apost h]
  have hqc : GA.replaceQuotes [if q then apostChar else quoteChar] = [quoteChar] := by
    cases q <;> simp [GA.replaceQuotes]
  rw [hqc]
  simp

theorem renderElems_map_fst_false :
    ∀ items : List (Str × Bool), (∀ p ∈ items, apostChar ∉ p.1) →
      GA.replaceQuotes (GA.renderElems items) =
        GA.renderElems (items.map (fun p => (p.1, false))) := by
  intro items
  induction items with
  | nil => intro _; rfl
  | cons e rest ih =>
    intro h
    unfold GA.renderElems
    rw [replaceQuotes_append,
      replaceQuotes_renderElem (h e (List.mem_cons_self e rest)) e.2]
    simp only [List.map_cons]
    congr 1
    by_cases hr : rest = []
    · subst hr; rfl
    · have hr' : rest.isEmpty = false := by simpa [List.isEmpty_iff] using hr
      have hr'' : (rest.map (fun p => (p.1, false))).isEmpty = false := by
        simpa [List.isEmpty_iff] using hr
      rw [if_neg (by simp [hr']), if_neg (by simp [hr''])]
      show GA.replaceQuotes (',' :: GA.renderElems rest) = _
      unfold GA.replaceQuotes
      simp only [List.map_cons]
      rw [show (if (',' : Char) = apostChar then quoteChar else ',') = ',' from by decide]
      show ',' :: GA.replaceQuotes (GA.renderElems rest) = _
      rw [ih (fun p hp => h p (List.mem_cons_of_mem e hp))]

theorem replaceQuotes_renderArray (items : List (Str × Bool)) (t : Bool)
    (h : ∀ p ∈ items, apostChar ∉ p.1) :
    GA.replaceQuotes (GA.renderArray items t) =
      GA.renderArray (items.map (fun p => (p.1, false))) t := by
  unfold GA.renderArray
  have hsh : '[' :: GA.renderElems items ++ (if t then [',', ']'] else [']'])
      = (['['] ++ GA.renderElems items) ++ (if t then [',', ']'] else [']']) := by simp
  rw [hsh, replaceQuotes_append, replaceQuotes_append,
    renderElems_map_fst_false items h]
  have h1 : GA.replaceQuotes ['['] = ['['] := by decide
  have h2 : GA.replaceQuotes (if t then [',', ']'] else [']']) =
      (if t then [',', ']'] else [']']) := by
    cases t <;> decide
  rw [h1, h2]
  simp

theorem RB_skip_aux :
    ∀ (n : Nat) (l : Str), l.length ≤ n → containsSub [',', ']'] l = false →
      GA.replaceCommaBracket l = l := by
  intro n
  induction n with
  | zero =>
    intro l hl _
    have : l = [] := List.length_eq_zero.mp (Nat.le_zero.mp hl)
    subst this
    rfl
  | succ n ih =>
    intro l hl hc
    match l with
    | [] => rfl
    | [c] => rfl
    | c :: d :: rest =>
      unfold GA.replaceCommaBracket
      have hnot : ¬(c = ',' ∧ d = ']') := by
        rintro ⟨h1, h2⟩
        subst h1; subst h2
        unfold containsSub at hc
        simp [leads] at hc
      rw [if_neg hnot]
      congr 1
      apply ih (d :: rest) (by simpa using Nat.le_of_succ_le_succ hl)
      unfold containsSub at hc
      exact (Bool.or_eq_false_iff.mp hc).2

theorem RB_skip {l : Str} (h : containsSub [',', ']'] l = false) :
    GA.replaceCommaBracket l = l :=
  RB_skip_aux l.length l le_rfl h

theorem RB_through_aux :
    ∀ (n : Nat) (x : Str), x.length ≤ n → ']' ∉ x →
      GA.replaceCommaBracket (x ++ [',', ']']) = x ++ [']'] := by
  intro n
  induction n with
  | zero =>
    intro x hx _
    have : x = [] := List.length_eq_zero.mp (Nat.le_zero.mp hx)
    subst this
    rfl
  | succ n ih =>
    intro x hx hmem
    match x with
    | [] => rfl
    | c :: x' =>
      show GA.replaceCommaBracket (c :: (x' ++ [',', ']'])) = c :: (x' ++ [']'])
      match x' with
      | [] =>
        show GA.replaceCommaBracket [c, ',', ']'] = [c, ']']
        unfold GA.replaceCommaBracket
        rw [if_neg (by rintro ⟨_, h⟩; exact absurd h (by decide))]
        rfl
      | e :: x'' =>
        have he : e ≠ ']' := by
          intro hc
          exact hmem (hc ▸ List.mem_cons_of_mem c (List.mem_cons_self e x''))
        show GA.replaceCommaBracket (c :: e :: (x'' ++ [',', ']'])) = _
        unfold GA.replaceCommaBracket
        rw [if_neg (by rintro ⟨_, h⟩; exact he h)]
        have := ih (e :: x'') (by simpa using Nat.le_of_succ_le_succ hx)
          (fun hc => hmem (List.mem_cons_of_mem c hc))
        rw [show (e :: (x'' ++ [',', ']'])) = (e :: x'') ++ [',', ']'] from rfl, this]

theorem RB_through {x : Str} (h : ']' ∉ x) :
    GA.replaceCommaBracket (x ++ [',', ']']) = x ++ [']'] :=
  RB_through_aux x.length x le_rfl h

theorem no_cb_append :
    ∀ (x : Str), ']' ∉ x → x.getLast? ≠ some ',' →
      containsSub [',', ']'] (x ++ [']']) = false := by
  intro x
  induction x with
  | nil => intro _ _; decide
  | cons c x' ih =>
    intro hmem hlast
    show containsSub [',', ']'] (c :: (x' ++ [']'])) = false
    unfold containsSub
    apply Bool.or_eq_false_iff.mpr
    constructor
    · by_cases hc : c = ','
      · subst hc
        match x' with
        | [] =>
          exact absurd rfl hlast
        | e :: x'' =>
          have he : e ≠ ']' := fun hc =>
            hmem (hc ▸ List.mem_cons_of_mem ',' (List.mem_cons_self e x''))
          show leads [',', ']'] (',' :: e :: (x'' ++ [']'])) = false
          have he' : (']' : Char) ≠ e := fun hh => he hh.symm
          simp [leads, he']
      · show leads [',', ']'] (c :: (x' ++ [']'])) = false
        simp [leads, Ne.symm hc]
    · apply ih
      · exact fun hc => hmem (List.mem_cons_of_mem c hc)
      · match x' with
        | [] => simp
        | e :: x'' =>
          rw [show (c :: e :: x'').getLast? = (e :: x'').getLast? from
            List.getLast?_cons_cons] at hlast
          exact hlast

theorem renderElems_no_char {c : Char} (h1 : c ≠ quoteChar) (h2 : c ≠ apostChar)
    (h3 : c ≠ ',') :
    ∀ items : List (Str × Bool), (∀ p ∈ items, c ∉ p.1) →
      c ∉ GA.renderElems items := by
  intro items
  induction items with
  | nil => intro _ h; simp [GA.renderElems] at h
  | cons e rest ih =>
    intro hitems hmem
    unfold GA.renderElems at hmem
    rcases List.mem_append.mp hmem with h | h
    · unfold GA.renderElem at hmem h
      rcases List.mem_append.mp h with h' | h'
      · rcases List.mem_cons.mp h' with h'' | h''
        · cases he : e.2 <;> rw [he] at h'' <;> simp at h'' <;>
            first
            | exact h1 h''
            | exact h2 h''
        · exact hitems e (List.mem_cons_self e rest) (h'' :)
      · cases he : e.2 <;> rw [he] at h' <;> simp at h' <;>
          first
          | exact h1 h'
          | exact h2 h'
    · by_cases hr : rest.isEmpty
      · rw [if_pos hr] at h
        simp at h
      · rw [if_neg hr] at h
        rcases List.mem_cons.mp h with h' | h'
        · exact h3 h'
        · exact ih (fun p hp => hitems p (List.mem_cons_of_mem e hp)) h'

theorem renderElems_ne_nil (e : Str × Bool) (rest : List (Str × Bool)) :
    GA.renderElems (e :: rest) ≠ [] := by
  unfold GA.renderElems GA.renderElem
  simp

theorem renderElems_last :
    ∀ (items : List (Str × Bool)), items ≠ [] →
      (GA.renderElems items).getLast? = some quoteChar ∨
      (GA.renderElems items).getLast? = some apostChar := by
  intro items
  induction items with
  | nil => intro h; exact absurd rfl h
  | cons e rest ih =>
    intro _
    unfold GA.renderElems
    by_cases hr : rest = []
    · subst hr
      rw [if_pos (by rfl)]
      rw [List.append_nil]
      unfold GA.renderElem
      rw [show ((if e.2 then apostChar else quoteChar) :: e.1 ++
          [if e.2 then apostChar else quoteChar]) =
          ((if e.2 then apostChar else quoteChar) :: e.1) ++
          [if e.2 then apostChar else quoteChar] from by simp]
      rw [List.getLast?_append_of_ne_nil _ (by simp)]
      cases he : e.2
      · left; simp
      · right; simp
    · rw [if_neg (by simpa [List.isEmpty_iff] using hr)]
      rw [List.getLast?_append_of_ne_nil _ (by simp)]
      rw [show (',' :: GA.renderElems rest) = [','] ++ GA.renderElems rest from rfl]
      rw [List.getLast?_append_of_ne_nil _ (by
        match rest, hr with
        | f :: rest', _ => exact renderElems_ne_nil f rest')]
      exact ih hr

theorem rwbAux_nil (fuel : Nat) : GA.rwbAux fuel [] = [] := by
  cases fuel <;> rfl

theorem rwbAux_append_bracket :
    ∀ (fuel : Nat) (x : Str), x.length < fuel → ']' ∉ x →
      (∀ ch, x.getLast? = some ch → isJsWsB ch = false ∧ ch ≠ ',') →
      GA.rwbAux fuel (x ++ [']']) = x ++ [']'] := by
  intro fuel
  induction fuel with
  | zero => intro x hx _ _; exact absurd hx (Nat.not_lt_zero _)
  | succ f ih =>
    intro x hx hmem hlast
    match x with
    | [] =>
      show GA.rwbAux (f + 1) [']'] = [']']
      unfold GA.rwbAux
      rw [if_neg (by decide : ¬(']' : Char) = ',')]
      rw [rwbAux_nil]
    | c :: x' =>
      show GA.rwbAux (f + 1) (c :: (x' ++ [']'])) = c :: (x' ++ [']'])
      unfold GA.rwbAux
      by_cases hc : c = ','
      · rw [if_pos hc]
        have hx'ne : x' ≠ [] := by
          intro hnil
          subst hnil
          have := hlast c rfl
          exact this.2 hc
        rcases hgl : x'.getLast? with _ | chl
        · rw [List.getLast?_eq_none_iff] at hgl
          exact absurd hgl hx'ne
        have hlastx' : ∀ ch, x'.getLast? = some ch → isJsWsB ch = false ∧ ch ≠ ',' := by
          intro ch hch
          apply hlast
          match x', hx'ne with
          | e :: t, _ =>
            rw [List.getLast?_cons_cons]
            exact hch
        have hdw : x'.dropWhile isJsWsB ≠ [] := by
          intro hdnil
          have hall := List.dropWhile_eq_nil_iff.mp hdnil
          have h1 := (hlastx' chl hgl).1
          have h2 := hall chl (mem_getLast? _ _ hgl)
          rw [h1] at h2
          exact Bool.false_ne_true h2
        rcases hdweq : x'.dropWhile isJsWsB with _ | ⟨hd, tl⟩
        · exact absurd hdweq hdw
        have hhd_ws : isJsWsB hd = false := dropWhile_head_false hdweq
        have hhd_ne : hd ≠ ']' := by
          intro hcc
          exact hmem (hcc ▸ List.mem_cons_of_mem c
            (dropWhile_mem (hdweq ▸ List.mem_cons_self hd tl)))
        have hscr : (x' ++ [']']).drop (((x' ++ [']']).takeWhile isJsWsB).length)
            = hd :: (tl ++ [']']) := by
          rw [takeWhile_append_of_stop x' [']'] hdw,
            drop_takeWhile_append x' [']'], hdweq]
          rfl
        rw [hscr]
        split
        · rename_i r3 heq
          injection heq with h1 h2
          exact absurd h1 hhd_ne
        · have hih := ih x' (by simpa using Nat.lt_of_succ_lt_succ (by simpa using hx))
            (fun hcc => hmem (List.mem_cons_of_mem c hcc)) hlastx'
          rw [hih, hc]
      · rw [if_neg hc]
        have hih := ih x' (by simpa using Nat.lt_of_succ_lt_succ (by simpa using hx))
          (fun hcc => hmem (List.mem_cons_of_mem c hcc))
          (by
            intro ch hch
            apply hlast
            match x', hch with
            | e :: t, hch =>
              rw [List.getLast?_cons_cons]
              exact hch)
        rw [hih]

theorem RWB_id {x : Str} (hmem : ']' ∉ x)
    (hlast : ∀ ch, x.getLast? = some ch → isJsWsB ch = false ∧ ch ≠ ',') :
    GA.replaceCommaWsBracket (x ++ [']']) = x ++ [']'] := by
  unfold GA.replaceCommaWsBracket
  apply rwbAux_append_bracket
  · rw [List.length_append]
    simp
  · exact hmem
  · exact hlast

theorem cleanArray_render (items : List (Str × Bool)) (t : Bool)
    (hap : ∀ p ∈ items, apostChar ∉ p.1) (hbr : ∀ p ∈ items, ']' ∉ p.1) :
    GA.replaceCommaWsBracket (GA.replaceCommaBracket (GA.replaceQuotes
        (GA.renderArray items t)))
      = GA.renderArray (items.map (fun p => (p.1, false))) false := by
  rw [replaceQuotes_renderArray items t hap]
  set wf := items.map (fun p => (p.1, false)) with hwf
  have hbr' : ∀ p ∈ wf, ']' ∉ p.1 := by
    intro p hp
    rw [hwf] at hp
    rcases List.mem_map.mp hp with ⟨q, hq, hpe⟩
    have : p.1 = q.1 := by rw [← hpe]
    rw [this]
    exact hbr q hq
  have hmemx : ']' ∉ '[' :: GA.renderElems wf := by
    intro hc
    rcases List.mem_cons.mp hc with h | h
    · exact absurd h (by decide)
    · exact renderElems_no_char (by decide) (by decide) (by decide) wf hbr' h
  have hlastx : ∀ ch, ('[' :: GA.renderElems wf).getLast? = some ch →
      isJsWsB ch = false ∧ ch ≠ ',' := by
    intro ch hch
    by_cases hwfe : wf = []
    · rw [hwfe] at hch
      have : ch = '[' := by
        have : (['['] : Str).getLast? = some '[' := by decide
        rw [show GA.renderElems [] = [] from rfl] at hch
        rw [this] at hch
        injection hch with h
        exact h.symm
      subst this
      exact ⟨by decide, by decide⟩
    · have hre : ('[' :: GA.renderElems wf).getLast? = (GA.renderElems wf).getLast? := by
        rw [show ('[' :: GA.renderElems wf) = ['['] ++ GA.renderElems wf from rfl]
        exact List.getLast?_append_of_ne_nil _
          (match wf, hwfe with | f :: r, _ => renderElems_ne_nil f r)
      rw [hre] at hch
      rcases renderElems_last wf hwfe with h | h
      · rw [h] at hch
        injection hch with hc
        subst hc
        exact ⟨by decide, by decide⟩
      · rw [h] at hch
        injection hch with hc
        subst hc
        exact ⟨by decide, by decide⟩
  have hRB : GA.replaceCommaBracket (GA.renderArray wf t)
      = ('[' :: GA.renderElems wf) ++ [']'] := by
    cases t with
    | false =>
      have hshape : GA.renderArray wf false = ('[' :: GA.renderElems wf) ++ [']'] := by
        unfold GA.renderArray
        simp
      rw [hshape, RB_skip (no_cb_append _ hmemx (fun h => (hlastx ',' h).2 rfl))]
    | true =>
      have hshape : GA.renderArray wf true = ('[' :: GA.renderElems wf) ++ [',', ']'] := by
        unfold GA.renderArray
        simp
      rw [hshape, RB_through hmemx]
  rw [hRB, RWB_id hmemx hlastx]
  unfold GA.renderArray
  simp

theorem parseJsonString_render {u : Str} (hu : ∀ a ∈ u, GA.strChar a = true)
    (rest : Str) :
    GA.parseJsonString (quoteChar :: (u ++ quoteChar :: rest)) = some (u, rest) := by
  unfold GA.parseJsonString
  dsimp only
  rw [if_pos rfl]
  have htw : (u ++ quoteChar :: rest).takeWhile GA.strChar = u :=
    takeWhile_append_stop hu (by decide) rest
  rw [htw, List.drop_left]
  dsimp only
  rw [if_pos rfl]

theorem renderElems_wf_head (u : Str) (rest : List Str) :
    ∃ tl, GA.renderElems (GA.wfItems (u :: rest)) = quoteChar :: tl := by
  rw [show GA.wfItems (u :: rest) = (u, false) :: GA.wfItems rest from rfl]
  unfold GA.renderElems GA.renderElem
  exact ⟨_, rfl⟩

theorem parseElems_render :
    ∀ (urls : List Str), urls ≠ [] →
      (∀ u ∈ urls, ∀ a ∈ u, GA.strChar a = true) →
      ∀ (fuel : Nat), (GA.renderElems (GA.wfItems urls)).length < fuel →
      GA.parseElems fuel (GA.renderElems (GA.wfItems urls) ++ [']']) = some urls := by
  intro urls
  induction urls with
  | nil => intro h; exact absurd rfl h
  | cons u rest ih =>
    intro _ hstr fuel hlen
    match fuel with
    | 0 => exact absurd hlen (Nat.not_lt_zero _)
    | f + 1 =>
      by_cases hrest : rest = []
      · subst hrest
        have hsh : GA.renderElems (GA.wfItems [u]) ++ [']']
            = quoteChar :: (u ++ quoteChar :: [']']) := by
          unfold GA.wfItems GA.renderElems GA.renderElem
          simp
        rw [hsh]
        unfold GA.parseElems
        rw [parseJsonString_render (hstr u (List.mem_cons_self u [])) [']']]
        dsimp only
        rw [show ([']'] : Str).dropWhile isJsWsB = [']'] from by decide]
        dsimp only
        rw [if_neg (by decide), if_pos rfl, if_pos (by decide)]
      · obtain ⟨v, rest', rfl⟩ : ∃ v rest', rest = v :: rest' := by
          match rest, hrest with
          | v :: rest', _ => exact ⟨v, rest', rfl⟩
        have hsh : GA.renderElems (GA.wfItems (u :: v :: rest')) ++ [']']
            = quoteChar :: (u ++ quoteChar ::
                (',' :: (GA.renderElems (GA.wfItems (v :: rest')) ++ [']']))) := by
          conv_lhs => rw [show GA.wfItems (u :: v :: rest')
            = (u, false) :: GA.wfItems (v :: rest') from rfl]
          rw [show GA.renderElems ((u, false) :: GA.wfItems (v :: rest')) =
              GA.renderElem u false ++
                (',' :: GA.renderElems (GA.wfItems (v :: rest'))) from by
            unfold GA.renderElems
            rw [if_neg (by simp [GA.wfItems])]
            rfl]
          unfold GA.renderElem
          simp
        rw [hsh]
        unfold GA.parseElems
        rw [parseJsonString_render (hstr u (List.mem_cons_self _ _))
          (',' :: (GA.renderElems (GA.wfItems (v :: rest')) ++ [']']))]
        dsimp only
        rw [List.dropWhile_cons, if_neg (by decide)]
        dsimp only
        rw [if_pos rfl]
        have hdw2 : ((GA.renderElems (GA.wfItems (v :: rest')) ++ [']']).dropWhile isJsWsB)
            = GA.renderElems (GA.wfItems (v :: rest')) ++ [']'] := by
          rcases renderElems_wf_head v rest' with ⟨tl, htl⟩
          rw [htl]
          show (quoteChar :: (tl ++ [']'])).dropWhile isJsWsB = _
          rw [List.dropWhile_cons, if_neg (by decide)]
          rfl
        rw [hdw2]
        have hlen' : (GA.renderElems (GA.wfItems (v :: rest'))).length < f := by
          have := congrArg List.length hsh
          simp only [List.length_append, List.length_cons] at this
          omega
        rw [ih (by simp) (fun w hw => hstr w (List.mem_cons_of_mem u hw)) f hlen']

theorem parseJsonStringArray_render (urls : List Str)
    (h : ∀ u ∈ urls, ∀ a ∈ u, GA.strChar a = true) :
    GA.parseJsonStringArray (GA.renderArray (GA.wfItems urls) false) = some urls := by
  cases urls with
  | nil => decide
  | cons u rest =>
    rcases renderElems_wf_head u rest with ⟨tl, htl⟩
    unfold GA.renderArray GA.parseJsonStringArray
    rw [show (if false then ([',', ']'] : Str) else [']']) = [']'] from rfl]
    rw [show ('[' :: GA.renderElems (GA.wfItems (u :: rest)) ++ [']']).dropWhile isJsWsB
        = '[' :: (GA.renderElems (GA.wfItems (u :: rest)) ++ [']']) from by
      show ('[' :: (GA.renderElems (GA.wfItems (u :: rest)) ++ [']'])).dropWhile isJsWsB = _
      rw [List.dropWhile_cons, if_neg (by decide)]]
    dsimp only
    rw [if_pos rfl]
    have hdw : (GA.renderElems (GA.wfItems (u :: rest)) ++ [']']).dropWhile isJsWsB
        = quoteChar :: (tl ++ [']']) := by
      rw [htl]
      show (quoteChar :: (tl ++ [']'])).dropWhile isJsWsB = _
      rw [List.dropWhile_cons, if_neg (by decide)]
    rw [hdw]
    dsimp only
    rw [if_neg (by decide)]
    rw [show quoteChar :: (tl ++ [']']) = GA.renderElems (GA.wfItems (u :: rest)) ++ [']'] from by
      rw [htl]
      rfl]
    apply parseElems_render (u :: rest) (by simp) h
    rw [List.length_append]
    omega

theorem extract_render (scripts : List Str) (sc : Str)
    (items : List (Str × Bool)) (t : Bool)
    (hfind : scripts.find? (fun s => containsSub GA.tsReaderMarker s) = some sc)
    (hmatch : GA.imagesArrayMatch sc = some (GA.renderArray items t))
    (hstr : ∀ p ∈ items, ∀ a ∈ p.1, GA.strChar a = true)
    (hap : ∀ p ∈ items, apostChar ∉ p.1)
    (hbr : ∀ p ∈ items, ']' ∉ p.1) :
    GA.extractImagesFromScript scripts
      = (items.map Prod.fst).filter GA.isValidImageUrl := by
  unfold GA.extractImagesFromScript
  rw [hfind]
  dsimp only
  rw [hmatch]
  dsimp only
  rw [cleanArray_render items t hap hbr]
  have hmap : items.map (fun p => (p.1, false)) = GA.wfItems (items.map Prod.fst) := by
    unfold GA.wfItems
    rw [List.map_map]
    rfl
  rw [hmap, parseJsonStringArray_render (items.map Prod.fst) (by
    intro u hu a ha
    rcases List.mem_map.mp hu with ⟨p, hp, hpe⟩
    exact hstr p hp a (hpe ▸ ha))]

/-- C9: for every inline-script document whose images array is malformed
only by single quotes (per-element flags `qs`) and/or a trailing comma
(`t`), `extractImagesFromScript` returns the same image list as it does
for the corresponding well-formed JSON array containing the identical
URLs in the same order — and that list is the URLs filtered by
`isValidImageUrl`.  (URL characters are restricted to those the regexp
`[^"\\]` of the source's string literals and the bracket scan admit:
no quotes of either kind, no backslash, no closing bracket.) -/
theorem claim_C9 (urls : List Str) (qs : List Bool) (t : Bool)
    (scripts scripts' : List Str) (sc sc' : Str)
    (hlen : qs.length = urls.length)
    (hchar : ∀ u ∈ urls, ∀ a ∈ u,
      a ≠ quoteChar ∧ a ≠ apostChar ∧ a ≠ backslashChar ∧ a ≠ ']')
    (hfind : scripts.find? (fun s => containsSub GA.tsReaderMarker s) = some sc)
    (hmatch : GA.imagesArrayMatch sc = some (GA.renderArray (urls.zip qs) t))
    (hfind' : scripts'.find? (fun s => containsSub GA.tsReaderMarker s) = some sc')
    (hmatch' : GA.imagesArrayMatch sc' = some (GA.renderArray (GA.wfItems urls) false)) :
    GA.extractImagesFromScript scripts = GA.extractImagesFromScript scripts'
      ∧ GA.extractImagesFromScript scripts = urls.filter GA.isValidImageUrl := by
  have hz : ∀ p ∈ urls.zip qs, p.1 ∈ urls := by
    intro p hp
    obtain ⟨a, b⟩ := p
    exact (List.of_mem_zip hp).1
  have hw : ∀ p ∈ GA.wfItems urls, p.1 ∈ urls := by
    intro p hp
    rcases List.mem_map.mp hp with ⟨u, hu, hpe⟩
    have : p.1 = u := by rw [← hpe]
    rw [this]
    exact hu
  have h1 := extract_render scripts sc (urls.zip qs) t hfind hmatch
    (fun p hp a ha => by
      have hc := hchar p.1 (hz p hp) a ha
      simp [GA.strChar, hc.1, hc.2.2.1])
    (fun p hp hc => (hchar p.1 (hz p hp) apostChar hc).2.1 rfl)
    (fun p hp hc => (hchar p.1 (hz p hp) ']' hc).2.2.2 rfl)
  have h2 := extract_render scripts' sc' (GA.wfItems urls) false hfind' hmatch'
    (fun p hp a ha => by
      have hc := hchar p.1 (hw p hp) a ha
      simp [GA.strChar, hc.1, hc.2.2.1])
    (fun p hp hc => (hchar p.1 (hw p hp) apostChar hc).2.1 rfl)
    (fun p hp hc => (hchar p.1 (hw p hp) ']' hc).2.2.2 rfl)
  have hm1 : (urls.zip qs).map Prod.fst = urls :=
    List.map_fst_zip urls qs (le_of_eq hlen.symm)
  have hm2 : (GA.wfItems urls).map Prod.fst = urls := by
    unfold GA.wfItems
    rw [List.map_map]
    exact List.map_id urls
  rw [hm1] at h1
  rw [hm2] at h2
  exact ⟨h1.trans h2.symm, h1⟩

/-- Witness for C9: a script whose images array uses single quotes and a
trailing comma yields the same pages as the well-formed double-quoted
script with the same two URLs. -/
theorem claim_C9_witness :
    GA.extractImagesFromScript
        ["ts_reader.run(\"images\":['https://a/1.png','https://a/2.png',]);".toList]
      = GA.extractImagesFromScript
        ["ts_reader.run(\"images\":[\"https://a/1.png\",\"https://a/2.png\"]);".toList]
    ∧ GA.extractImagesFromScript
        ["ts_reader.run(\"images\":['https://a/1.png','https://a/2.png',]);".toList]
      = (["https://a/1.png".toList, "https://a/2.png".toList]).filter
          GA.isValidImageUrl :=
  claim_C9 ["https://a/1.png".toList, "https://a/2.png".toList] [true, true] true
    ["ts_reader.run(\"images\":['https://a/1.png','https://a/2.png',]);".toList]
    ["ts_reader.run(\"images\":[\"https://a/1.png\",\"https://a/2.png\"]);".toList]
    "ts_reader.run(\"images\":['https://a/1.png','https://a/2.png',]);".toList
    "ts_reader.run(\"images\":[\"https://a/1.png\",\"https://a/2.png\"]);".toList
    (by decide) (by decide) (by decide) (by decide) (by decide) (by decide)
